import Mathlib

/-!
Verification of the rules4code / Hands synchronization and dependency-resolution
engine, as a shallow embedding of the JavaScript sources:

* `lib/tracker.js`  — persisted metadata ledger (read/merge defaults, install and
  dependency tracking, content hashing);
* `lib/merger.js`   — marker-based merge and removal of entries inside the two
  shared JSON documents, and the hook sync routine;
* `lib/detector.js` / `lib/resolver.js` — components, manifests, recursive
  dependency resolution with its cycle handling, orphan detection;
* the `Hands` CLI class — `syncComponents`, `installFileComponent`,
  `cleanupOrphans`.

Modelling conventions:

* JavaScript objects are modelled as insertion-ordered association lists
  (`JsObj`): assignment of an existing key updates its value in place,
  assignment of a new key appends it, `delete` removes it, and iteration
  (`Object.keys` / `Object.entries`) is list order.  Keys are unique in every
  object the program ever builds; lemmas that need this take a `Nodup`
  hypothesis.
* MD5 is modelled as an injective digest: `md5` is the identity on the exact
  byte stream the source feeds to the hash, so digest equality corresponds to
  stream equality (the standard collision-free idealization).
* The filesystem is a flat, insertion-ordered map from path to file content
  (`Fs`).  A path is a directory when some key extends it; `fs.readFile` of a
  directory fails, which the tracker turns into a `null` hash, so
  `computeFileHash` is simply `none` for directories and missing paths exactly
  as in the source.
* Timestamps (`new Date().toISOString()`) are passed in explicitly as `now`
  arguments.
* `String.prototype.localeCompare` (used to sort directory entries before
  hashing) is locale-aware ICU collation, not byte order.  It is modelled for
  ASCII names by the standard two-level approximation: compare lower-cased
  forms first (primary strength), break ties by code-point order.  In
  particular "a.md" sorts before "B.md", unlike byte-lexicographic order.
-/

namespace Hands

/-! ## JavaScript objects as insertion-ordered association lists -/

/-- Model of a JavaScript object: an insertion-ordered association list with
string keys. -/
abbrev JsObj (α : Type) := List (String × α)

namespace JsObj

/-- Property read `o[k]`: the value at the first (unique) occurrence of `k`. -/
def get? {α : Type} : JsObj α → String → Option α
  | [], _ => none
  | (k', v) :: rest, k => if k' = k then some v else get? rest k

/-- Property write `o[k] = v`: update in place if the key exists, else append. -/
def set {α : Type} : JsObj α → String → α → JsObj α
  | [], k, v => [(k, v)]
  | (k', v') :: rest, k, v =>
      if k' = k then (k', v) :: rest else (k', v') :: set rest k v

/-- Property delete `delete o[k]`. -/
def del {α : Type} : JsObj α → String → JsObj α
  | [], _ => []
  | (k', v') :: rest, k => if k' = k then del rest k else (k', v') :: del rest k

/-- Object spread `\x7b...a, ...b\x7d`: `a`'s keys in their positions, overridden
by `b`; keys only in `b` are appended in `b`'s order. -/
def spread {α : Type} (a b : JsObj α) : JsObj α :=
  b.foldl (fun acc kv => acc.set kv.1 kv.2) a

/-- Keys of the object, in order. -/
def keys {α : Type} (o : JsObj α) : List String := o.map Prod.fst

end JsObj

/-- Model of `[...new Set([...a])]`: deduplicate keeping first occurrences. -/
def jsDedupAux (seen : List String) : List String → List String
  | [] => []
  | x :: rest =>
      if x ∈ seen then jsDedupAux seen rest else x :: jsDedupAux (x :: seen) rest

/-- JavaScript `Set` iteration order of the elements of `l`. -/
def jsDedup (l : List String) : List String := jsDedupAux [] l

/-! ## tracker.js — the metadata ledger -/

/-- Ledger schema version (`VERSION` in tracker.js). -/
def VERSION : String := "3.0.0"

/-- Entry of `metadata.components[category]` (written by `trackInstall`).
`hash` is `Option` because `computeFileHash`/`computeDirectoryHash` return
`null` on error and that value is stored as-is. -/
structure CompEntry where
  hash : Option String
  installedAt : String
  sourcePath : String
deriving DecidableEq, Repr

/-- Entry of `metadata.resolvedDeps[category]` (written by `trackDependency`). -/
structure DepEntry where
  hash : Option String
  installedAt : String
  sourcePath : String
  requiredBy : List String
deriving DecidableEq, Repr

/-- The persisted ledger document (`.hands-meta.json`). -/
structure Metadata where
  version : String
  installedBy : String
  components : JsObj (JsObj CompEntry)
  resolvedDeps : JsObj (JsObj DepEntry)
deriving DecidableEq, Repr

/-- `createEmptyMetadata()` from tracker.js. -/
def createEmptyMetadata : Metadata :=
  { version := VERSION
    installedBy := "hands"
    components := [("skills", []), ("agents", []), ("hooks", [])]
    resolvedDeps := [("mcpServers", []), ("agents", []), ("skills", [])] }

/-- Partial ledger data as it may be found on disk: every key may be absent.
Extra unknown keys are irrelevant to the program and omitted from the model. -/
structure PartialMetadata where
  version : Option String
  installedBy : Option String
  components : Option (JsObj (JsObj CompEntry))
  resolvedDeps : Option (JsObj (JsObj DepEntry))
deriving DecidableEq, Repr

/-- State of the persisted ledger file as `readMetadata` can encounter it. -/
inductive StoredFile where
  | missing
  | corrupt
  | parsed (data : PartialMetadata)
deriving DecidableEq, Repr

/-- `readMetadata` from tracker.js: defaults for a missing or unparsable file;
otherwise the schema default overlaid with the stored data, with the
`components` and `resolvedDeps` sub-objects merged one level deep
(`\x7b...empty.components, ...(data.components ?? \x7b\x7d)\x7d`). -/
def readMetadata (file : StoredFile) : Metadata :=
  match file with
  | .missing => createEmptyMetadata
  | .corrupt => createEmptyMetadata
  | .parsed d =>
      let empty := createEmptyMetadata
      { version := d.version.getD empty.version
        installedBy := d.installedBy.getD empty.installedBy
        components := JsObj.spread empty.components (d.components.getD [])
        resolvedDeps := JsObj.spread empty.resolvedDeps (d.resolvedDeps.getD []) }

/-- `trackInstall` from tracker.js: record a user-selected component under
`components[category][name]`, creating the category object if absent. -/
def trackInstall (m : Metadata) (category name : String) (hash : Option String)
    (sourcePath now : String) : Metadata :=
  let cat := (m.components.get? category).getD []
  let entry : CompEntry := { hash := hash, installedAt := now, sourcePath := sourcePath }
  { m with components := m.components.set category (cat.set name entry) }

/-- `trackUninstall` from tracker.js: delete `components[category][name]` if the
category object exists. -/
def trackUninstall (m : Metadata) (category name : String) : Metadata :=
  match m.components.get? category with
  | none => m
  | some cat => { m with components := m.components.set category (cat.del name) }

/-- `trackDependency` from tracker.js: record an auto-resolved dependency,
keeping the existing `installedAt` and unioning `requiredBy`
(`[...new Set([...existingRequiredBy, ...requiredBy])]`). -/
def trackDependency (m : Metadata) (category name : String) (hash : Option String)
    (sourcePath : String) (requiredBy : List String) (now : String) : Metadata :=
  let cat := (m.resolvedDeps.get? category).getD []
  let existing := cat.get? name
  let entry : DepEntry :=
    { hash := hash
      installedAt := (existing.map (·.installedAt)).getD now
      sourcePath := sourcePath
      requiredBy := jsDedup (((existing.map (·.requiredBy)).getD []) ++ requiredBy) }
  { m with resolvedDeps := m.resolvedDeps.set category (cat.set name entry) }

/-- `removeDependency` from tracker.js. -/
def removeDependency (m : Metadata) (category name : String) : Metadata :=
  match m.resolvedDeps.get? category with
  | none => m
  | some cat => { m with resolvedDeps := m.resolvedDeps.set category (cat.del name) }

/-- Hash of a tracked entry seen through `getTrackedInfo` (components first,
then resolvedDeps); `some h` means the component is tracked with hash `h`. -/
def getTrackedHash (m : Metadata) (category name : String) : Option (Option String) :=
  match ((m.components.get? category).getD []).get? name with
  | some e => some e.hash
  | none =>
      match ((m.resolvedDeps.get? category).getD []).get? name with
      | some e => some e.hash
      | none => none

/-- Whether `(category, name)` is present in the `components` map. -/
def pairInComponents (m : Metadata) (category name : String) : Bool :=
  (((m.components.get? category).getD []).get? name).isSome

/-- Whether `(category, name)` is present in the `resolvedDeps` map. -/
def pairInDeps (m : Metadata) (category name : String) : Bool :=
  (((m.resolvedDeps.get? category).getD []).get? name).isSome

/-- One ledger mutation, as offered by tracker.js. -/
inductive Mutation where
  | install (category name : String) (hash : Option String) (sourcePath now : String)
  | uninstall (category name : String)
  | dep (category name : String) (hash : Option String) (sourcePath : String)
      (requiredBy : List String) (now : String)
  | rmdep (category name : String)
deriving DecidableEq, Repr

/-- Apply one mutation to the ledger. -/
def applyMutation (m : Metadata) : Mutation → Metadata
  | .install c n h sp now => trackInstall m c n h sp now
  | .uninstall c n => trackUninstall m c n
  | .dep c n h sp req now => trackDependency m c n h sp req now
  | .rmdep c n => removeDependency m c n

/-- Apply a sequence of mutations, left to right. -/
def applyMutations (m : Metadata) (muts : List Mutation) : Metadata :=
  muts.foldl applyMutation m

/-- The `(category, name)` pairs a mutation list ever passes to `trackInstall`. -/
def installPairs (muts : List Mutation) : List (String × String) :=
  muts.filterMap fun mu =>
    match mu with
    | .install c n _ _ _ => some (c, n)
    | _ => none

/-- The `(category, name)` pairs a mutation list ever passes to
`trackDependency`. -/
def depPairs (muts : List Mutation) : List (String × String) :=
  muts.filterMap fun mu =>
    match mu with
    | .dep c n _ _ _ _ => some (c, n)
    | _ => none

/-! ## merger.js — marker-based merge of the shared settings document -/

/-- A handler value as written in a hook's source configuration: either a JSON
object (its fields other than the `_hands` marker abstracted as `body`, its own
`_hands` field, if any, kept separately) or a bare command string. -/
inductive RawHandler where
  | obj (body : String) (hands : Option String)
  | cmd (s : String)
deriving DecidableEq, Repr

/-- A handler object as it sits in a `settings.json` event list.  `body`
abstracts every field except the `_hands` owner marker; `cmdWrapped` records
whether the object was produced from the `\x7b command: handler \x7d` wrapping of a
non-object handler. -/
structure Handler where
  body : String
  cmdWrapped : Bool
  hands : Option String
deriving DecidableEq, Repr

/-- The marking step of `mergeHook`: `\x7b...handler, _hands: hookName\x7d` for an
object, `\x7b command: handler, _hands: hookName\x7d` otherwise. -/
def markHandler (h : RawHandler) (hookName : String) : Handler :=
  match h with
  | .obj body _ => { body := body, cmdWrapped := false, hands := some hookName }
  | .cmd s => { body := s, cmdWrapped := true, hands := some hookName }

/-- Whether a stored handler bears the given hook's owner marker
(`h._hands === hookName`). -/
def isMarked (hookName : String) (h : Handler) : Bool :=
  h.hands = some hookName

/-- The `settings.json` document, reduced to the fields the merger touches:
the `hooks` key (absent on a fresh document) mapping event names to handler
lists. -/
structure SettingsDoc where
  hooks : Option (JsObj (List Handler))
deriving DecidableEq, Repr

/-- A hook's declared configuration: event name to handlers.  The source
accepts a single handler or an array (`Array.isArray`) and wraps a single one
into a one-element array, so a list models both shapes. -/
abbrev HookConfig := JsObj (List RawHandler)

/-- The per-event, per-handler loop body of `mergeHook`: find the first handler
bearing this hook's marker and replace it in place, else append. -/
def mergeHookEvent (l : List Handler) (hookName : String)
    (handlers : List RawHandler) : List Handler :=
  handlers.foldl
    (fun l h =>
      let mh := markHandler h hookName
      match l.findIdx? (fun x => isMarked hookName x) with
      | some i => l.set i mh
      | none => l ++ [mh])
    l

/-- `mergeHook` from merger.js: for each event of the hook's configuration,
merge its handlers into the event's list (created if absent). -/
def mergeHook (settings : SettingsDoc) (hookName : String)
    (config : HookConfig) : SettingsDoc :=
  let hooks := settings.hooks.getD []
  let hooks := config.foldl
    (fun hooks kv =>
      let l := (hooks.get? kv.1).getD []
      hooks.set kv.1 (mergeHookEvent l hookName kv.2))
    hooks
  { hooks := some hooks }

/-- `removeHook` from merger.js: drop every handler bearing the hook's marker
from every event list, deleting event keys whose list becomes empty.  When the
document has no `hooks` key the function returns without writing. -/
def removeHook (settings : SettingsDoc) (hookName : String) : SettingsDoc :=
  match settings.hooks with
  | none => settings
  | some hooks =>
      let hooks := hooks.map fun kv => (kv.1, kv.2.filter (fun h => ¬ isMarked hookName h))
      { hooks := some (hooks.filter (fun kv => ¬ kv.2.isEmpty)) }

/-- `hasHook` from merger.js: does any event list contain a handler bearing the
hook's marker. -/
def hasHook (settings : SettingsDoc) (hookName : String) : Bool :=
  (settings.hooks.getD []).any fun kv => kv.2.any (isMarked hookName)

/-- Number of handlers in an event list bearing a given marker. -/
def countMarked (hookName : String) (l : List Handler) : Nat :=
  (l.filter (isMarked hookName)).length

/-- The at-most-one-marked-handler invariant over a whole settings document:
every event list holds at most one handler per owner marker. -/
def markerInvariant (settings : SettingsDoc) : Prop :=
  ∀ ev l n, (ev, l) ∈ settings.hooks.getD [] → countMarked n l ≤ 1

/-! ## resolver.js — recursive dependency resolution -/

/-- A skill's manifest, as far as `resolveSkill` reads it.  `mcpServers` and
`skills` are `some` exactly when the field holds an array (`Array.isArray`
guard); `agent` is the raw optional string field. -/
structure Manifest where
  mcpServers : Option (List String)
  agent : Option String
  skills : Option (List String)
deriving DecidableEq, Repr

/-- A skill as the resolver sees it: a name and an optional parsed manifest. -/
structure SkillComp where
  name : String
  manifest : Option Manifest
deriving DecidableEq, Repr

/-- The read-only context of `resolveDependencies`: the pool and universe maps
and the user's direct selections. -/
structure ResolveCtx where
  mcpServerNames : List String
  agentNames : List String
  skillMap : JsObj SkillComp
  userSelectedSkillNames : List String
  userSelectedAgentNames : List String
deriving Repr

/-- The mutable state threaded through `resolveSkill`: the three requiredBy
maps (name to the `Set` of requiring skills, in insertion order), the error
and warning lists and the global `resolved` set. -/
structure ResolveState where
  requiredMcpServers : JsObj (List String)
  requiredAgents : JsObj (List String)
  requiredSkills : JsObj (List String)
  errors : List String
  warnings : List String
  resolved : List String
deriving DecidableEq, Repr

/-- Add `member` to the `Set` stored at `key` (created if absent), as in
`if (!map.has(k)) map.set(k, new Set()); map.get(k).add(m)`. -/
def addRequired (m : JsObj (List String)) (key member : String) : JsObj (List String) :=
  let cur := (m.get? key).getD []
  m.set key (if member ∈ cur then cur else cur ++ [member])

/-- The circular-dependency error message pushed by `resolveSkill`. -/
def cycleMessage (chain : List String) : String :=
  "Circular dependency: " ++ String.intercalate " -> " chain

/-- Warning for a manifest MCP-server reference missing from the pool. -/
def mcpWarning (skillName serverName : String) : String :=
  "Skill " ++ skillName ++ " requires MCP server " ++ serverName
    ++ " which is not in the dependency pool"

/-- Warning for a manifest agent reference missing from the universe. -/
def agentWarning (skillName agentName : String) : String :=
  "Skill " ++ skillName ++ " requires agent " ++ agentName ++ " which is not available"

/-- Warning for a manifest skill reference missing from the universe. -/
def skillWarning (skillName depName : String) : String :=
  "Skill " ++ skillName ++ " requires skill " ++ depName ++ " which is not available"

/-- The MCP-server loop of `resolveSkill`. -/
def resolveMcpRefs (ctx : ResolveCtx) (skillName : String) (serverNames : List String)
    (st : ResolveState) : ResolveState :=
  serverNames.foldl
    (fun st serverName =>
      if serverName ∈ ctx.mcpServerNames then
        { st with requiredMcpServers := addRequired st.requiredMcpServers serverName skillName }
      else
        { st with warnings := st.warnings ++ [mcpWarning skillName serverName] })
    st

/-- The agent step of `resolveSkill` (`if (manifest.agent)` is a truthiness
check, so the empty string is skipped like an absent field). -/
def resolveAgentRef (ctx : ResolveCtx) (skillName : String) (agent : Option String)
    (st : ResolveState) : ResolveState :=
  match agent with
  | none => st
  | some agentName =>
      if agentName = "" then st
      else if agentName ∈ ctx.agentNames then
        if agentName ∈ ctx.userSelectedAgentNames then st
        else { st with requiredAgents := addRequired st.requiredAgents agentName skillName }
      else
        { st with warnings := st.warnings ++ [agentWarning skillName agentName] }

/-- `resolveSkill` from resolver.js.  The call depth of the JavaScript
recursion is bounded by the number of distinct skills (each call either
returns at the `resolved` guard or adds a new name to `resolved`), so the
embedding carries a fuel argument that each nesting level consumes; theorems
about the resolver hold for every fuel value.  The declared skill-dependency
loop (`for of manifest.skills`) is the fold. -/
def resolveSkill (ctx : ResolveCtx) : Nat → SkillComp → List String → ResolveState →
    ResolveState
  | 0, _, _, st => st
  | fuel + 1, skill, chain, st =>
      if skill.name ∈ st.resolved then st
      else if skill.name ∈ chain then
        { st with errors := st.errors ++ [cycleMessage (chain ++ [skill.name])] }
      else
        let st := { st with resolved := st.resolved ++ [skill.name] }
        match skill.manifest with
        | none => st
        | some manifest =>
            let chain' := chain ++ [skill.name]
            let st := resolveMcpRefs ctx skill.name (manifest.mcpServers.getD []) st
            let st := resolveAgentRef ctx skill.name manifest.agent st
            (manifest.skills.getD []).foldl
              (fun st depName =>
                match ctx.skillMap.get? depName with
                | some depSkill =>
                    let st :=
                      if depName ∈ ctx.userSelectedSkillNames then st
                      else { st with
                        requiredSkills := addRequired st.requiredSkills depName skill.name }
                    resolveSkill ctx fuel depSkill chain' st
                | none =>
                    { st with warnings := st.warnings ++ [skillWarning skill.name depName] })
              st

/-- Input of `resolveDependencies` (components reduced to the fields the
resolver reads; the full component records are recovered by name lookups). -/
structure ResolveInput where
  selectedSkills : List SkillComp
  allSkills : List SkillComp
  selectedAgentNames : List String
  allAgentNames : List String
  poolMcpNames : List String
deriving Repr

/-- Result of `resolveDependencies`: each dependency as its name paired with
the `requiredBy` set (the source spreads the component record into the entry;
the record is always the map entry for that name). -/
structure ResolveResult where
  mcpServers : List (String × List String)
  agents : List (String × List String)
  skills : List (String × List String)
  errors : List String
  warnings : List String
deriving DecidableEq, Repr

/-- `resolveDependencies` from resolver.js: walk every selected skill, then the
post-pass over `requiredSkills` (which looks up the first *requiring* skill of
each entry — always already resolved), then build the result arrays. -/
def resolveDependencies (inp : ResolveInput) : ResolveResult :=
  let ctx : ResolveCtx :=
    { mcpServerNames := inp.poolMcpNames
      agentNames := inp.allAgentNames
      skillMap := inp.allSkills.map (fun s => (s.name, s))
      userSelectedSkillNames := inp.selectedSkills.map (·.name)
      userSelectedAgentNames := inp.selectedAgentNames }
  let st : ResolveState :=
    { requiredMcpServers := [], requiredAgents := [], requiredSkills := []
      errors := [], warnings := [], resolved := [] }
  let fuel := inp.allSkills.length + 1
  let st := inp.selectedSkills.foldl (fun st skill => resolveSkill ctx fuel skill [] st) st
  let st := st.requiredSkills.foldl
    (fun st kv =>
      match kv.2.head? with
      | some firstRequirer =>
          match ctx.skillMap.get? firstRequirer with
          | some depSkill => resolveSkill ctx fuel depSkill [] st
          | none => st
      | none => st)
    st
  { mcpServers := st.requiredMcpServers
    agents := st.requiredAgents
    skills := st.requiredSkills
    errors := st.errors
    warnings := st.warnings }

/-! ## resolver.js `findOrphans` and the retained-set pass of `cleanupOrphans` -/

/-- Orphaned entries per category, each as `(name, info)`. -/
structure Orphans where
  mcpServers : List (String × DepEntry)
  agents : List (String × DepEntry)
  skills : List (String × DepEntry)
deriving DecidableEq, Repr

/-- One category of `findOrphans`: the entries whose `requiredBy` does not
intersect `current`. -/
def findOrphansCat (m : Metadata) (current : List String) (category : String) :
    List (String × DepEntry) :=
  ((m.resolvedDeps.get? category).getD []).filter
    (fun kv => ¬ kv.2.requiredBy.any (fun s => s ∈ current))

/-- `findOrphans` from resolver.js. -/
def findOrphans (m : Metadata) (current : List String) : Orphans :=
  { mcpServers := findOrphansCat m current "mcpServers"
    agents := findOrphansCat m current "agents"
    skills := findOrphansCat m current "skills" }

/-- The retained-set computation at the top of `cleanupOrphans`: starting from
the selected skill names, one single pass over the ledger's resolved skill
dependencies in stored order, adding each entry whose `requiredBy` intersects
the set accumulated so far. -/
def retainedSkillNames (m : Metadata) (selectedSkillNames : List String) : List String :=
  ((m.resolvedDeps.get? "skills").getD []).foldl
    (fun current kv =>
      if kv.2.requiredBy.any (fun s => s ∈ current) then
        if kv.1 ∈ current then current else current ++ [kv.1]
      else current)
    selectedSkillNames

/-- One step of the spec's transitive closure: add every resolved skill
dependency whose `requiredBy` intersects the current set. -/
def specRetainedStep (deps : List (String × DepEntry)) (current : List String) :
    List String :=
  deps.foldl
    (fun current kv =>
      if kv.2.requiredBy.any (fun s => s ∈ current) then
        if kv.1 ∈ current then current else current ++ [kv.1]
      else current)
    current

/-- Iterate `specRetainedStep` a fixed number of times. -/
def specRetainedIter (deps : List (String × DepEntry)) (sel : List String) : Nat → List String
  | 0 => sel
  | k + 1 => specRetainedStep deps (specRetainedIter deps sel k)

/-- Modelled from the spec: the retained set of section 4.6 — "the direct
selection, plus any auto-resolved skill dependency that is itself still
transitively required".  Computed as the least fixed point of
`specRetainedStep`, reached after at most one iteration per entry. -/
def specRetained (m : Metadata) (selectedSkillNames : List String) : List String :=
  let deps := (m.resolvedDeps.get? "skills").getD []
  specRetainedIter deps selectedSkillNames deps.length

/-! ## Filesystem, content hashing and file installation -/

/-- A filesystem as a flat, insertion-ordered map from path to file content.
A path with no entry of its own but with entries strictly below it is a
directory. -/
abbrev Fs := JsObj String

/-- MD5 modelled as an injective digest of the exact byte stream fed to the
hash: digest equality corresponds to stream equality (collision-free
idealization). -/
def md5 (stream : String) : String := stream

/-- Whether `p` is a file in `fs`. -/
def fsHasFile (fs : Fs) (p : String) : Bool := (fs.get? p).isSome

/-- Character-list prefix test (the meaning of `String.isPrefixOf`). -/
def charPrefix : List Char → List Char → Bool
  | [], _ => true
  | _ :: _, [] => false
  | a :: as, b :: bs => a = b && charPrefix as bs

/-- String prefix test, on the underlying character lists. -/
def strIsPrefix (p s : String) : Bool := charPrefix p.data s.data

/-- Whether `key` lies strictly under directory `dir`. -/
def isUnder (dir key : String) : Bool := strIsPrefix (dir ++ "/") key

/-- Whether `p` is a (non-empty) directory in `fs`. -/
def fsHasDir (fs : Fs) (p : String) : Bool := fs.any (fun kv => isUnder p kv.1)

/-- `fs.pathExists`. -/
def pathExists (fs : Fs) (p : String) : Bool := fsHasFile fs p || fsHasDir fs p

/-- `computeFileHash` from tracker.js: hash of the file's content, `null` when
the read fails (missing path or directory). -/
def computeFileHash (fs : Fs) (p : String) : Option String :=
  (fs.get? p).map md5

/-- The path of `key` relative to directory `dir` (defined when
`isUnder dir key`): drop the `dir ++ "/"` prefix. -/
def relOf (dir key : String) : String := ⟨key.data.drop (dir ++ "/").data.length⟩

/-- Split a character list at `/` separators into path components. -/
def splitSlash (cs : List Char) : List (List Char) :=
  match cs with
  | [] => [[]]
  | c :: rest =>
      let r := splitSlash rest
      if c = '/' then [] :: r
      else
        match r with
        | [] => [[c]]
        | comp :: comps => (c :: comp) :: comps

/-- Whether a relative path has a component named `manifest.json`; the
directory scans skip such entries (files and subdirectories alike) at every
depth. -/
def hasManifestComponent (rel : String) : Bool :=
  (splitSlash rel.data).any (fun c => c = "manifest.json".data)

/-- The `(relative path, content)` pairs the directory-hash scan of
`computeDirectoryHash` collects under `dir`: every file under the directory
except entries named `manifest.json`.  The flat map's order stands in for the
filesystem's iteration order, which the subsequent sort cancels. -/
def scanFiles (fs : Fs) (dir : String) : List (String × String) :=
  (fs.filter (fun kv => isUnder dir kv.1)).filterMap
    (fun kv =>
      let rel := relOf dir kv.1
      if hasManifestComponent rel then none else some (rel, kv.2))

/-- Lexicographic (code-point) order on character lists — the byte order the
spec's word "lexicographically" denotes.  A non-strict `le`: equal heads
recurse, otherwise compare code points. -/
def lexLe : List Char → List Char → Bool
  | [], _ => true
  | _ :: _, [] => false
  | a :: as, b :: bs => if a = b then lexLe as bs else decide (a.toNat < b.toNat)

/-- Byte-lexicographic order on strings. -/
def strLe (a b : String) : Bool := lexLe a.data b.data

/-- ASCII lower-casing of a character (`A`–`Z` to `a`–`z`). -/
def lowerChar (c : Char) : Char :=
  if 65 ≤ c.toNat ∧ c.toNat ≤ 90 then Char.ofNat (c.toNat + 32) else c

/-- ASCII lower-casing of a string. -/
def lowerStr (s : String) : String := ⟨s.data.map lowerChar⟩

/-- ASCII model of `String.prototype.localeCompare` ordering (ICU default
collation): compare lower-cased forms first, break ties by code-point order. -/
def localeLe (a b : String) : Bool :=
  if lowerStr a = lowerStr b then strLe a b else strLe (lowerStr a) (lowerStr b)

/-- The byte stream `computeDirectoryHash` feeds to MD5: for each collected
file in sorted order, `relativePath + NUL + content`. -/
def dirStream (files : List (String × String)) : String :=
  files.foldl (fun acc f => acc ++ f.1 ++ "\x00" ++ f.2) ""

/-- Sorting relation used by the directory hash: `localeCompare` on the
relative paths.  On the distinct relative paths of a directory scan it is a
total order without ties, so every comparison sort — in particular
JavaScript's `Array.prototype.sort` — produces the same list; the embedding
uses insertion sort, which the kernel can evaluate. -/
def relLocaleLe (a b : String × String) : Prop := localeLe a.1 b.1 = true

instance : DecidableRel relLocaleLe := fun a b => instDecidableEqBool (localeLe a.1 b.1) true

/-- Byte-lexicographic counterpart of `relLocaleLe`, for the spec's wording. -/
def relLexLe (a b : String × String) : Prop := strLe a.1 b.1 = true

instance : DecidableRel relLexLe := fun a b => instDecidableEqBool (strLe a.1 b.1) true

/-- `computeDirectoryHash` from tracker.js: `computeFileHash` when the path is
a plain file, `null` when it does not exist, otherwise the digest of the
collected files sorted by `localeCompare` of their relative paths. -/
def computeDirectoryHash (fs : Fs) (p : String) : Option String :=
  if fsHasFile fs p then computeFileHash fs p
  else if fsHasDir fs p then
    let files := (scanFiles fs p).insertionSort relLocaleLe
    some (md5 (dirStream files))
  else none

/-- The directory digest as the spec's section 4.2 words it: the same fold,
but over the files sorted lexicographically (byte order) by relative path. -/
def specLexDirectoryHash (fs : Fs) (p : String) : Option String :=
  if fsHasFile fs p then computeFileHash fs p
  else if fsHasDir fs p then
    let files := (scanFiles fs p).insertionSort relLexLe
    some (md5 (dirStream files))
  else none

/-- The last path component (`path.basename`). -/
def baseName (p : String) : String := ⟨(splitSlash p.data).getLastD p.data⟩

/-- `fs.copy(src, dst)` from `srcFs` into `dstFs`.  Copying a file writes the
single target key; copying a directory merges its files into the target
directory, overwriting same-named files and leaving other target files alone
(fs-extra semantics).  With `exclManifest` (the `installFileComponent` filter)
every entry named `manifest.json` is skipped at every depth. -/
def fsCopy (srcFs dstFs : Fs) (src dst : String) (exclManifest : Bool) : Fs :=
  match srcFs.get? src with
  | some content =>
      if exclManifest && baseName src = "manifest.json" then dstFs
      else dstFs.set dst content
  | none =>
      (srcFs.filter (fun kv => isUnder src kv.1)).foldl
        (fun dstFs kv =>
          let rel := relOf src kv.1
          if exclManifest && hasManifestComponent rel then dstFs
          else dstFs.set (dst ++ "/" ++ rel) kv.2)
        dstFs

/-- `fs.remove(p)`: delete the file or directory tree at `p`. -/
def fsRemove (fs : Fs) (p : String) : Fs :=
  fs.filter (fun kv => ¬ (kv.1 = p || isUnder p kv.1))

/-- One step of the directory-merge fold of `fsCopy`, named so the fold can be
reasoned about entry by entry. -/
def copyEntryStep (src dst : String) (exclManifest : Bool) (dstFs : Fs)
    (kv : String × String) : Fs :=
  let rel := relOf src kv.1
  if exclManifest && hasManifestComponent rel then dstFs
  else dstFs.set (dst ++ "/" ++ rel) kv.2

/-! ## Components, status.js, and the Hands sync pipeline -/

/-- A FILE_BASED component (skill or agent) as the detector produces it. -/
structure FileComp where
  name : String
  category : String
  sourcePath : String
  targetPath : String
  manifest : Option Manifest
deriving DecidableEq, Repr

/-- A hook component: a JSON_ENTRY targeting the settings document. -/
structure HookComp where
  name : String
  sourcePath : String
  config : HookConfig
  requiredEnvVars : List String
deriving DecidableEq, Repr

/-- A dependency-pool MCP server component; `config` abstracts the serialized
JSON configuration. -/
structure PoolMcp where
  name : String
  sourcePath : String
  config : String
  requiredEnvVars : List String
deriving DecidableEq, Repr

/-- Model of `JSON.stringify` on a hook configuration, as fed to
`tracker.computeHash`; the exact encoding is irrelevant to the claims, only
that equal configurations encode equally. -/
def encodeRawHandler : RawHandler → String
  | .obj b none => "obj(" ++ b ++ ")"
  | .obj b (some h) => "obj(" ++ b ++ ";_hands=" ++ h ++ ")"
  | .cmd s => "cmd(" ++ s ++ ")"

/-- Serialized form of a hook configuration object. -/
def encodeHookConfig (c : HookConfig) : String :=
  String.intercalate "|"
    (c.map fun kv =>
      kv.1 ++ "=" ++ String.intercalate "," (kv.2.map encodeRawHandler))

/-- `tracker.computeHash(hook.config)`. -/
def hookConfigHash (c : HookConfig) : String := md5 (encodeHookConfig c)

/-- Modelled from the spec: `lib/env-validator.js` is not under `src/`; per
section 4.2 a hook (or MCP dependency) is blocked when any environment
variable it names is absent from the runtime environment. -/
def validateEnvVars (env required : List String) : Bool :=
  required.all (fun v => v ∈ env)

/-- Component status as classified by status.js. -/
inductive Status where
  | available
  | installed
  | outdated
  | missingEnv
deriving DecidableEq, Repr

/-- `getFileBasedStatus` from status.js: absent target is `available`; equal
source and target hashes (directory hash for skills, file hash otherwise) is
`installed`; anything else is `outdated` (the ledger only changes the printed
description, not the status). -/
def getFileBasedStatus (sourceFs targetFs : Fs) (c : FileComp) : Status :=
  if ¬ pathExists targetFs c.targetPath then .available
  else
    let sourceHash :=
      if c.category = "skills" then computeDirectoryHash sourceFs c.sourcePath
      else computeFileHash sourceFs c.sourcePath
    let targetHash :=
      if c.category = "skills" then computeDirectoryHash targetFs c.targetPath
      else computeFileHash targetFs c.targetPath
    if sourceHash = targetHash then .installed else .outdated

/-- `getHookStatus` from status.js: the environment check takes precedence;
then marker presence in the settings document; then the tracked hash against a
fresh hash of the declared configuration. -/
def getHookStatus (env : List String) (settings : SettingsDoc) (meta : Metadata)
    (h : HookComp) : Status :=
  if ¬ validateEnvVars env h.requiredEnvVars then .missingEnv
  else if ¬ hasHook settings h.name then .available
  else
    match getTrackedHash meta "hooks" h.name with
    | some trackedHash =>
        if trackedHash = some (hookConfigHash h.config) then .installed else .outdated
    | none => .outdated

/-- A file write performed by the sync pass. -/
inductive WriteEvent where
  | copyTree (src dst : String)
  | backup (target : String)
  | removeTree (p : String)
  | ledgerWrite
  | settingsWrite
  | configWrite
deriving DecidableEq, Repr

/-- The mutable target-project state threaded through a sync pass, plus the
log of file writes the pass performs. -/
structure SyncState where
  fs : Fs
  meta : Metadata
  settings : SettingsDoc
  mcpServers : Option (JsObj String)
  log : List WriteEvent
deriving Repr

/-- `writeMetadata` wrapper: every tracker mutation ends in a full ledger
write. -/
def stTrackInstall (st : SyncState) (category name : String) (hash : Option String)
    (sourcePath now : String) : SyncState :=
  { st with meta := trackInstall st.meta category name hash sourcePath now
            log := st.log ++ [.ledgerWrite] }

/-- `trackUninstall` with its unconditional ledger write. -/
def stTrackUninstall (st : SyncState) (category name : String) : SyncState :=
  { st with meta := trackUninstall st.meta category name
            log := st.log ++ [.ledgerWrite] }

/-- `trackDependency` with its unconditional ledger write. -/
def stTrackDependency (st : SyncState) (category name : String) (hash : Option String)
    (sourcePath : String) (requiredBy : List String) (now : String) : SyncState :=
  { st with meta := trackDependency st.meta category name hash sourcePath requiredBy now
            log := st.log ++ [.ledgerWrite] }

/-- `removeDependency` with its unconditional ledger write. -/
def stRemoveDependency (st : SyncState) (category name : String) : SyncState :=
  { st with meta := removeDependency st.meta category name
            log := st.log ++ [.ledgerWrite] }

/-- `addMcpServer` from merger.js: set the key and write `config.json`. -/
def stAddMcpServer (st : SyncState) (name config : String) : SyncState :=
  { st with mcpServers := some ((st.mcpServers.getD []).set name config)
            log := st.log ++ [.configWrite] }

/-- `removeMcpServer` from merger.js: delete the key if the map exists; the
document is written back either way. -/
def stRemoveMcpServer (st : SyncState) (name : String) : SyncState :=
  { st with mcpServers := (st.mcpServers.map (fun m => m.del name))
            log := st.log ++ [.configWrite] }

/-- `mergeHook` with its unconditional settings write. -/
def stMergeHook (st : SyncState) (hookName : String) (config : HookConfig) : SyncState :=
  { st with settings := mergeHook st.settings hookName config
            log := st.log ++ [.settingsWrite] }

/-- `removeHook`: returns without writing when the document has no `hooks`
key, else writes the filtered document. -/
def stRemoveHook (st : SyncState) (hookName : String) : SyncState :=
  match st.settings.hooks with
  | none => st
  | some _ =>
      { st with settings := removeHook st.settings hookName
                log := st.log ++ [.settingsWrite] }

/-- `installFileComponent` from the Hands class: missing source fails; an
existing target whose *file* hash differs from the source's *file* hash is
first copied aside to `targetPath + ".local"`; then the source is copied over
the target with the `manifest.json` filter.  (For directory-shaped skills
both file hashes are `null`, which compare equal.) -/
def installFileComponent (sourceFs : Fs) (st : SyncState) (c : FileComp) :
    SyncState × Bool :=
  if ¬ pathExists sourceFs c.sourcePath then (st, false)
  else
    let st :=
      if pathExists st.fs c.targetPath then
        let sourceHash := computeFileHash sourceFs c.sourcePath
        let targetHash := computeFileHash st.fs c.targetPath
        if sourceHash ≠ targetHash then
          { st with fs := fsCopy st.fs st.fs c.targetPath (c.targetPath ++ ".local") false
                    log := st.log ++ [.backup c.targetPath] }
        else st
      else st
    ({ st with fs := fsCopy sourceFs st.fs c.sourcePath c.targetPath true
               log := st.log ++ [.copyTree c.sourcePath c.targetPath] }, true)

/-- `uninstallFileComponent` from the Hands class. -/
def uninstallFileComponent (st : SyncState) (c : FileComp) : SyncState :=
  if pathExists st.fs c.targetPath then
    { st with fs := fsRemove st.fs c.targetPath, log := st.log ++ [.removeTree c.targetPath] }
  else st

/-- `syncHooks` from merger.js: merge and track every selected hook
(unconditionally), then remove and untrack every tracked hook that is no
longer selected. -/
def syncHooks (st : SyncState) (selectedHooks : List HookComp)
    (trackedHooks : JsObj CompEntry) (now : String) : SyncState :=
  let selectedNames := selectedHooks.map (·.name)
  let st := selectedHooks.foldl
    (fun st hook =>
      let newHash := hookConfigHash hook.config
      let st := stMergeHook st hook.name hook.config
      stTrackInstall st "hooks" hook.name (some newHash) hook.sourcePath now)
    st
  trackedHooks.foldl
    (fun st kv =>
      if kv.1 ∈ selectedNames then st
      else
        let st := stRemoveHook st kv.1
        stTrackUninstall st "hooks" kv.1)
    st

/-- The component universe as the detector produces it. -/
structure Universe where
  skills : List FileComp
  agents : List FileComp
  hooks : List HookComp
deriving Repr

/-- The user's selection, by component name per category. -/
structure Selection where
  skillNames : List String
  agentNames : List String
  hookNames : List String
deriving DecidableEq, Repr

/-- Answers the interactive prompts of a sync pass. -/
structure UserChoices where
  proceedDeps : Bool
  proceedHookEnv : String → Bool
  confirmOrphan : String → String → Bool

/-- The `installDependencies` helper of the Hands class: install MCP-server
dependencies into `config.json` and agent dependencies as files, tracking
each; resolved entries are recovered from the pool and universe by name, which
is where `resolveDependencies` took them from. -/
def installDependencies (sourceFs : Fs) (pool : List PoolMcp) (agents : List FileComp)
    (resolution : ResolveResult) (now : String) (st : SyncState) : SyncState :=
  let st := resolution.mcpServers.foldl
    (fun st dep =>
      match pool.find? (fun p => p.name = dep.1) with
      | some p =>
          let st := stAddMcpServer st p.name p.config
          stTrackDependency st "mcpServers" p.name (some (md5 p.config)) p.sourcePath dep.2 now
      | none => st)
    st
  resolution.agents.foldl
    (fun st dep =>
      match agents.find? (fun a => a.name = dep.1) with
      | some comp =>
          let (st, ok) := installFileComponent sourceFs st comp
          if ok then
            stTrackDependency st "agents" comp.name (computeFileHash sourceFs comp.sourcePath)
              comp.sourcePath dep.2 now
          else st
      | none => st)
    st

/-- The auto-resolved skill-dependency loop of `syncComponents` (runs whether
or not the dependency prompt was confirmed). -/
def installSkillDeps (sourceFs : Fs) (skills : List FileComp)
    (resolution : ResolveResult) (now : String) (st : SyncState) : SyncState :=
  resolution.skills.foldl
    (fun st dep =>
      match skills.find? (fun s => s.name = dep.1) with
      | some comp =>
          let (st, ok) := installFileComponent sourceFs st comp
          if ok then
            stTrackDependency st "skills" comp.name (computeDirectoryHash sourceFs comp.sourcePath)
              comp.sourcePath dep.2 now
          else st
      | none => st)
    st

/-- One file-based category pass of `syncComponents`: install the selected
components whose pre-sync status is `available` or `outdated`, then remove the
previously installed components that are no longer selected. -/
def syncFileCategory (sourceFs : Fs) (isSkills : Bool)
    (selected : List (FileComp × Status)) (allInCategory : List (FileComp × Status))
    (now : String) (st : SyncState) : SyncState :=
  let selectedNames := selected.map (fun p => p.1.name)
  let st := selected.foldl
    (fun st p =>
      if p.2 = Status.available || p.2 = Status.outdated then
        let (st, ok) := installFileComponent sourceFs st p.1
        if ok then
          let hash :=
            if isSkills then computeDirectoryHash sourceFs p.1.sourcePath
            else computeFileHash sourceFs p.1.sourcePath
          stTrackInstall st p.1.category p.1.name hash p.1.sourcePath now
        else st
      else st)
    st
  allInCategory.foldl
    (fun st p =>
      if p.1.name ∉ selectedNames && (p.2 = Status.installed || p.2 = Status.outdated) then
        let st := uninstallFileComponent st p.1
        stTrackUninstall st p.1.category p.1.name
      else st)
    st

/-- The `cleanupOrphans` method: compute the retained set with the single
in-order ledger pass, find orphans, and for each confirmed orphan remove its
installation and its ledger entry (targets for agents and skills are rebuilt
from the fixed layout). -/
def cleanupOrphans (selectedSkillNames : List String) (choices : UserChoices)
    (st : SyncState) : SyncState :=
  let current := retainedSkillNames st.meta selectedSkillNames
  let orphans := findOrphans st.meta current
  let st := orphans.mcpServers.foldl
    (fun st o =>
      if choices.confirmOrphan "mcpServers" o.1 then
        let st := stRemoveMcpServer st o.1
        stRemoveDependency st "mcpServers" o.1
      else st)
    st
  let st := orphans.agents.foldl
    (fun st o =>
      if choices.confirmOrphan "agents" o.1 then
        let target := ".claude/agents/" ++ o.1 ++ ".md"
        let st :=
          if pathExists st.fs target then
            { st with fs := fsRemove st.fs target, log := st.log ++ [.removeTree target] }
          else st
        stRemoveDependency st "agents" o.1
      else st)
    st
  orphans.skills.foldl
    (fun st o =>
      if choices.confirmOrphan "skills" o.1 then
        let target := ".claude/skills/" ++ o.1
        let st :=
          if pathExists st.fs target then
            { st with fs := fsRemove st.fs target, log := st.log ++ [.removeTree target] }
          else st
        stRemoveDependency st "skills" o.1
      else st)
    st

/-- `syncComponents` from the Hands class, over components already carrying
their pre-sync statuses.  Any resolution error aborts the whole batch before
any file or ledger mutation. -/
def syncComponents (sourceFs : Fs) (env : List String)
    (skillsS agentsS : List (FileComp × Status)) (hooksS : List (HookComp × Status))
    (sel : Selection) (pool : List PoolMcp) (choices : UserChoices) (now : String)
    (st : SyncState) : SyncState :=
  let selectedSkills := skillsS.filter (fun p => p.1.name ∈ sel.skillNames)
  let selectedAgents := agentsS.filter (fun p => p.1.name ∈ sel.agentNames)
  let selectedHooks := hooksS.filter (fun p => p.1.name ∈ sel.hookNames)
  let resolution := resolveDependencies
    { selectedSkills := selectedSkills.map (fun p => { name := p.1.name, manifest := p.1.manifest })
      allSkills := skillsS.map (fun p => { name := p.1.name, manifest := p.1.manifest })
      selectedAgentNames := selectedAgents.map (fun p => p.1.name)
      allAgentNames := agentsS.map (fun p => p.1.name)
      poolMcpNames := pool.map (·.name) }
  if resolution.errors ≠ [] then st
  else
    let hasDeps := resolution.mcpServers ≠ [] || resolution.agents ≠ []
      || resolution.skills ≠ []
    let st :=
      if hasDeps && choices.proceedDeps then
        installDependencies sourceFs pool (agentsS.map (·.1)) resolution now st
      else st
    let st := installSkillDeps sourceFs (skillsS.map (·.1)) resolution now st
    let st := syncFileCategory sourceFs true selectedSkills skillsS now st
    let st := syncFileCategory sourceFs false selectedAgents agentsS now st
    let st :=
      if hooksS ≠ [] then
        let filteredHooks := (selectedHooks.map (·.1)).filter
          (fun h => validateEnvVars env h.requiredEnvVars || choices.proceedHookEnv h.name)
        let trackedHooks := (st.meta.components.get? "hooks").getD []
        syncHooks st filteredHooks trackedHooks now
      else st
    cleanupOrphans (selectedSkills.map (fun p => p.1.name)) choices st

/-- `addStatusToComponents` from status.js, over the whole universe. -/
def statusesOf (sourceFs : Fs) (env : List String) (u : Universe) (st : SyncState) :
    (List (FileComp × Status)) × (List (FileComp × Status)) × (List (HookComp × Status)) :=
  (u.skills.map (fun c => (c, getFileBasedStatus sourceFs st.fs c)),
   u.agents.map (fun c => (c, getFileBasedStatus sourceFs st.fs c)),
   u.hooks.map (fun h => (h, getHookStatus env st.settings st.meta h)))

/-- One full run of the Hands CLI with a fixed selection: compute statuses
from the current target state, then sync.  The returned `log` lists exactly
this run's file writes. -/
def runOnce (sourceFs : Fs) (env : List String) (u : Universe) (sel : Selection)
    (pool : List PoolMcp) (choices : UserChoices) (now : String) (st : SyncState) :
    SyncState :=
  let st := { st with log := [] }
  let s := statusesOf sourceFs env u st
  syncComponents sourceFs env s.1 s.2.1 s.2.2 sel pool choices now st

/-! ## Concrete instances used by counterexamples and witnesses -/

/-- Skill `A`, declaring a dependency on skill `B`. -/
def cycSkillA : SkillComp :=
  { name := "A", manifest := some { mcpServers := none, agent := none, skills := some ["B"] } }

/-- Skill `B`, declaring a dependency back on skill `A`. -/
def cycSkillB : SkillComp :=
  { name := "B", manifest := some { mcpServers := none, agent := none, skills := some ["A"] } }

/-- Resolution input with the two-skill cycle `A -> B -> A` and `A` selected. -/
def cycInput : ResolveInput :=
  { selectedSkills := [cycSkillA], allSkills := [cycSkillA, cycSkillB]
    selectedAgentNames := [], allAgentNames := [], poolMcpNames := [] }

/-- A mutation sequence that tracks the same `(skills, a)` pair first as an
auto-resolved dependency and then as a direct selection. -/
def c3muts : List Mutation :=
  [Mutation.dep "skills" "a" none "rules/skills/a" ["S"] "t1",
   Mutation.install "skills" "a" none "rules/skills/a" "t2"]

/-- A skill directory with mixed-case file names: ICU collation puts `a.md`
before `B.md`, byte order puts `B.md` first. -/
def fsMixedCase : Fs := [("s/B.md", "x"), ("s/a.md", "y")]

/-- The entry stored for endpoint `E` after tracking it for skill `X` at `t1`. -/
def depXEntry : DepEntry :=
  { hash := none, installedAt := "t1", sourcePath := "sp", requiredBy := ["X"] }

/-- A resolved-dependency entry with the given requirers. -/
def mkDep (req : List String) : DepEntry :=
  { hash := none, installedAt := "t0", sourcePath := "rules", requiredBy := req }

/-- A ledger whose skill-dependency chain `S -> D1 -> D2` is stored with `D2`
before `D1`, plus `D3` required by `D2`. -/
def metaChain : Metadata :=
  { createEmptyMetadata with
      resolvedDeps :=
        [("mcpServers", []), ("agents", []),
         ("skills", [("D2", mkDep ["D1"]), ("D1", mkDep ["S"]), ("D3", mkDep ["D2"])])] }

/-- Source tree for the sync scenarios: one skill directory and one agent
file. -/
def srcFsDemo : Fs := [("src/skills/S/SKILL.md", "body"), ("src/agents/ag.md", "persona")]

/-- The demo skill component. -/
def skillDemo : FileComp :=
  { name := "S", category := "skills", sourcePath := "src/skills/S"
    targetPath := "tgt/.claude/skills/S", manifest := none }

/-- The demo agent component. -/
def agentDemo : FileComp :=
  { name := "ag", category := "agents", sourcePath := "src/agents/ag.md"
    targetPath := "tgt/.claude/agents/ag.md", manifest := none }

/-- The demo hook component. -/
def hookDemo : HookComp :=
  { name := "H", sourcePath := "src/hooks/H.json"
    config := [("Stop", [RawHandler.cmd "a"])], requiredEnvVars := [] }

/-- Universe with the demo skill, agent and hook. -/
def uniDemo : Universe := { skills := [skillDemo], agents := [agentDemo], hooks := [hookDemo] }

/-- Selection of all three demo components. -/
def selDemo : Selection := { skillNames := ["S"], agentNames := ["ag"], hookNames := ["H"] }

/-- Prompt answers: decline everything optional. -/
def declineAll : UserChoices :=
  { proceedDeps := false, proceedHookEnv := fun _ => false, confirmOrphan := fun _ _ => false }

/-- Target state whose skill directory holds a stray file the source does not
have. -/
def dirtyState : SyncState :=
  { fs := [("tgt/.claude/skills/S/notes.txt", "keep")], meta := createEmptyMetadata
    settings := { hooks := none }, mcpServers := none, log := [] }

/-- Target state whose skill directory holds an old version of `SKILL.md`. -/
def staleSkillState : SyncState :=
  { fs := [("tgt/.claude/skills/S/SKILL.md", "OLD")], meta := createEmptyMetadata
    settings := { hooks := none }, mcpServers := none, log := [] }

/-- A fresh, empty target state. -/
def emptyState : SyncState :=
  { fs := [], meta := createEmptyMetadata, settings := { hooks := none }
    mcpServers := none, log := [] }

/-- First run of the double-sync scenario on the dirty target. -/
def dirtyRun1 : SyncState := runOnce srcFsDemo [] uniDemo selDemo [] declineAll "t1" dirtyState

/-- Second run of the double-sync scenario on the dirty target. -/
def dirtyRun2 : SyncState := runOnce srcFsDemo [] uniDemo selDemo [] declineAll "t2" dirtyRun1

/-! ## Association-list lemmas -/

namespace JsObj

theorem get?_set {α : Type} (m : JsObj α) (k : String) (v : α) (k' : String) :
    (m.set k v).get? k' = if k = k' then some v else m.get? k' := by
  induction m with
  | nil =>
      by_cases h : k = k' <;> simp [set, get?, h]
  | cons kv rest ih =>
      obtain ⟨a, b⟩ := kv
      by_cases hak : a = k
      · subst hak
        by_cases hk' : a = k' <;> simp [set, get?, hk']
      · by_cases hak' : a = k'
        · subst hak'
          have hkk' : ¬ k = a := fun h => hak h.symm
          simp [set, get?, hkk', hak]
        · simp [set, get?, hak, hak', ih]

theorem get?_del {α : Type} (m : JsObj α) (k k' : String) :
    (m.del k).get? k' = if k = k' then none else m.get? k' := by
  induction m with
  | nil =>
      by_cases h : k = k' <;> simp [del, get?, h]
  | cons kv rest ih =>
      obtain ⟨a, b⟩ := kv
      by_cases hak : a = k
      · subst hak
        by_cases hk' : a = k'
        · subst hk'
          simp [del, get?, ih]
        · simp [del, get?, hk', ih]
      · by_cases hak' : a = k'
        · subst hak'
          have hkk' : ¬ k = a := fun h => hak h.symm
          simp [del, get?, hkk', hak, ih]
        · simp [del, get?, hak, hak', ih]

theorem get?_none_of_key_not_mem {α : Type} (m : JsObj α) (k : String)
    (h : k ∉ m.map Prod.fst) : m.get? k = none := by
  induction m with
  | nil => rfl
  | cons kv rest ih =>
      obtain ⟨a, b⟩ := kv
      simp only [List.map_cons, List.mem_cons, not_or] at h
      have hak : ¬ a = k := fun hh => h.1 hh.symm
      simp [get?, hak, ih h.2]

theorem get?_spread {α : Type} (a b : JsObj α) (k : String)
    (hb : (b.map Prod.fst).Nodup) :
    (JsObj.spread a b).get? k = (b.get? k).or (a.get? k) := by
  induction b generalizing a with
  | nil => simp [spread, get?]
  | cons kv rest ih =>
      obtain ⟨k1, v1⟩ := kv
      simp only [List.map_cons, List.nodup_cons] at hb
      have hstep : JsObj.spread a ((k1, v1) :: rest) = JsObj.spread (a.set k1 v1) rest := by
        simp [spread]
      rw [hstep, ih _ hb.2]
      by_cases hk : k1 = k
      · subst hk
        have hnone : get? rest k1 = none := get?_none_of_key_not_mem rest k1 hb.1
        simp [hnone, get?, get?_set]
      · have hk' : ¬ k = k1 := fun h => hk h.symm
        simp [get?, hk, get?_set]

end JsObj

theorem mem_jsDedupAux (seen l : List String) (x : String) :
    x ∈ jsDedupAux seen l ↔ x ∈ l ∧ x ∉ seen := by
  induction l generalizing seen with
  | nil => simp [jsDedupAux]
  | cons y rest ih =>
      simp only [jsDedupAux]
      by_cases hy : y ∈ seen
      · simp only [hy, if_true, ih]
        constructor
        · rintro ⟨hx, hns⟩
          exact ⟨List.mem_cons_of_mem _ hx, hns⟩
        · rintro ⟨hx, hns⟩
          rcases List.mem_cons.mp hx with rfl | hx
          · exact absurd hy hns
          · exact ⟨hx, hns⟩
      · simp only [hy, if_false, List.mem_cons, ih]
        constructor
        · rintro (rfl | ⟨hx, hns⟩)
          · exact ⟨Or.inl rfl, hy⟩
          · simp only [List.mem_cons, not_or] at hns
            exact ⟨Or.inr hx, hns.2⟩
        · rintro ⟨rfl | hx, hns⟩
          · exact Or.inl rfl
          · by_cases hxy : x = y
            · exact Or.inl hxy
            · exact Or.inr ⟨hx, by simp [hns, hxy]⟩

theorem mem_jsDedup (l : List String) (x : String) : x ∈ jsDedup l ↔ x ∈ l := by
  simp [jsDedup, mem_jsDedupAux]

/-! ## C7 — readMetadata returns a structurally complete ledger -/

/-- C7: `readMetadata` always returns a structurally complete ledger: a
missing, empty or unparsable file yields the schema default without an error;
a parsed file keeps every stored top-level value and every stored `components`
/ `resolvedDeps` category, while absent keys are back-filled from the schema
default. -/
theorem readMetadata_structurally_complete :
    (readMetadata .missing = createEmptyMetadata)
    ∧ (readMetadata .corrupt = createEmptyMetadata)
    ∧ (∀ d : PartialMetadata,
        (readMetadata (.parsed d)).version = d.version.getD VERSION
        ∧ (readMetadata (.parsed d)).installedBy = d.installedBy.getD "hands"
        ∧ (((d.components.getD []).map Prod.fst).Nodup →
            ∀ k, (readMetadata (.parsed d)).components.get? k
              = ((d.components.getD []).get? k).or (createEmptyMetadata.components.get? k))
        ∧ (((d.resolvedDeps.getD []).map Prod.fst).Nodup →
            ∀ k, (readMetadata (.parsed d)).resolvedDeps.get? k
              = ((d.resolvedDeps.getD []).get? k).or (createEmptyMetadata.resolvedDeps.get? k))) := by
  refine ⟨rfl, rfl, fun d => ⟨rfl, rfl, fun hn k => ?_, fun hn k => ?_⟩⟩
  · exact JsObj.get?_spread _ _ k hn
  · exact JsObj.get?_spread _ _ k hn

/-- Witness for C7: a stored file missing the `version` key, the `agents` and
`hooks` categories and the whole `resolvedDeps` map is read back with the
stored skill entry kept and everything else back-filled. -/
theorem readMetadata_structurally_complete_witness :
    (readMetadata (.parsed
        { version := none, installedBy := some "other"
          components := some [("skills", [("x", { hash := none, installedAt := "t", sourcePath := "s" })])]
          resolvedDeps := none })).components.get? "hooks" = some []
    ∧ (readMetadata (.parsed
        { version := none, installedBy := some "other"
          components := some [("skills", [("x", { hash := none, installedAt := "t", sourcePath := "s" })])]
          resolvedDeps := none })).version = VERSION := by
  have h := readMetadata_structurally_complete.2.2
    { version := none, installedBy := some "other"
      components := some [("skills", [("x", { hash := none, installedAt := "t", sourcePath := "s" })])]
      resolvedDeps := none }
  refine ⟨?_, h.1⟩
  rw [h.2.2.1 (by decide) "hooks"]
  rfl

/-! ## C2 — trackDependency preserves installedAt and unions requiredBy -/

/-- C2: a repeated `trackDependency` for an already-tracked dependency keeps
the original `installedAt` and unions the new `requiredBy` names into the
stored set; in particular tracking endpoint `E` for skill `X` and then for
skill `Y` yields `requiredBy = [X, Y]` with the first call's timestamp, and
with `X` deselected but `Y` retained, `E` is not flagged as an orphan (it
stays tracked, its stored `requiredBy` containing `Y`). -/
theorem trackDependency_union :
    (∀ (m : Metadata) (category name : String) (h2 : Option String) (sp now : String)
        (req : List String) (e : DepEntry),
        ((m.resolvedDeps.get? category).getD []).get? name = some e →
        ∃ e', (((trackDependency m category name h2 sp req now).resolvedDeps.get? category).getD
            []).get? name = some e'
          ∧ e'.installedAt = e.installedAt
          ∧ (∀ x, x ∈ e'.requiredBy ↔ (x ∈ e.requiredBy ∨ x ∈ req)))
    ∧ (∀ (E X Y : String) (h : Option String) (sp t1 t2 : String), X ≠ Y →
        ∃ e, (((trackDependency (trackDependency createEmptyMetadata "mcpServers" E h sp [X] t1)
              "mcpServers" E h sp [Y] t2).resolvedDeps.get? "mcpServers").getD []).get? E = some e
          ∧ e.installedAt = t1 ∧ e.requiredBy = [X, Y]
          ∧ (E, e) ∉ (findOrphans (trackDependency (trackDependency createEmptyMetadata
              "mcpServers" E h sp [X] t1) "mcpServers" E h sp [Y] t2) [Y]).mcpServers) := by
  constructor
  · intro m category name h2 sp now req e he
    have hmain : (((trackDependency m category name h2 sp req now).resolvedDeps.get?
          category).getD []).get? name
        = some { hash := h2, installedAt := e.installedAt, sourcePath := sp,
                 requiredBy := jsDedup (e.requiredBy ++ req) } := by
      simp [trackDependency, JsObj.get?_set, he]
    exact ⟨_, hmain, rfl, fun x => by simp [mem_jsDedup]⟩
  · intro E X Y h sp t1 t2 hne
    have hget1 : ((trackDependency createEmptyMetadata "mcpServers" E h sp [X]
        t1).resolvedDeps.get? "mcpServers").getD [] = [(E,
          { hash := h, installedAt := t1, sourcePath := sp, requiredBy := [X] })] := by
      simp [trackDependency, createEmptyMetadata, JsObj.get?, JsObj.set, jsDedup, jsDedupAux]
    have hyx : Y ≠ X := Ne.symm hne
    have hget2 : ((trackDependency (trackDependency createEmptyMetadata "mcpServers" E h sp [X] t1)
          "mcpServers" E h sp [Y] t2).resolvedDeps.get? "mcpServers").getD []
        = [(E, { hash := h, installedAt := t1, sourcePath := sp, requiredBy := [X, Y] })] := by
      simp [trackDependency, hget1, JsObj.get?_set, JsObj.get?, JsObj.set, jsDedup,
        jsDedupAux, hyx]
    refine ⟨{ hash := h, installedAt := t1, sourcePath := sp, requiredBy := [X, Y] },
      ?_, rfl, rfl, ?_⟩
    · rw [hget2]
      simp [JsObj.get?]
    · simp [findOrphans, findOrphansCat, hget2]

/-- Witness for C2: tracking endpoint `E` for skill `X` at `t1` and again for
skill `Y` at `t2` keeps `installedAt = t1`, unions `requiredBy` to `[X, Y]`,
and leaves `E` untouched by orphan detection when only `Y` stays selected. -/
theorem trackDependency_union_witness :
    (∃ e', (((trackDependency (trackDependency createEmptyMetadata "mcpServers" "E" none "sp"
          ["X"] "t1") "mcpServers" "E" none "sp" ["Y"] "t2").resolvedDeps.get?
            "mcpServers").getD []).get? "E" = some e'
        ∧ e'.installedAt = depXEntry.installedAt
        ∧ (∀ x, x ∈ e'.requiredBy ↔ (x ∈ depXEntry.requiredBy ∨ x ∈ ["Y"])))
    ∧ (∃ e, (((trackDependency (trackDependency createEmptyMetadata "mcpServers" "E" none "sp"
          ["X"] "t1") "mcpServers" "E" none "sp" ["Y"] "t2").resolvedDeps.get?
            "mcpServers").getD []).get? "E" = some e
        ∧ e.installedAt = "t1" ∧ e.requiredBy = ["X", "Y"]
        ∧ ("E", e) ∉ (findOrphans (trackDependency (trackDependency createEmptyMetadata
            "mcpServers" "E" none "sp" ["X"] "t1") "mcpServers" "E" none "sp" ["Y"] "t2")
              ["Y"]).mcpServers) := by
  constructor
  · exact trackDependency_union.1
      (trackDependency createEmptyMetadata "mcpServers" "E" none "sp" ["X"] "t1")
      "mcpServers" "E" none "sp" "t2" ["Y"] depXEntry (by decide)
  · exact trackDependency_union.2 "E" "X" "Y" none "sp" "t1" "t2" (by decide)

/-! ## C3 — the components / resolvedDeps exclusivity invariant -/

theorem pairInComponents_trackInstall (m : Metadata) (c n : String) (h : Option String)
    (sp now c' n' : String)
    (hp : pairInComponents (trackInstall m c n h sp now) c' n' = true) :
    (c' = c ∧ n' = n) ∨ pairInComponents m c' n' = true := by
  by_cases hc : c = c'
  · subst hc
    by_cases hn : n = n'
    · exact Or.inl ⟨rfl, hn.symm⟩
    · right
      simp only [pairInComponents, trackInstall, JsObj.get?_set, if_pos rfl,
        Option.getD_some] at hp
      simpa [pairInComponents, JsObj.get?_set, hn] using hp
  · right
    simpa [pairInComponents, trackInstall, JsObj.get?_set, hc] using hp

theorem pairInComponents_trackUninstall (m : Metadata) (c n c' n' : String)
    (hp : pairInComponents (trackUninstall m c n) c' n' = true) :
    pairInComponents m c' n' = true := by
  unfold trackUninstall at hp
  rcases hcat : m.components.get? c with _ | cat
  · rwa [hcat] at hp
  · rw [hcat] at hp
    by_cases hc : c = c'
    · subst hc
      have hp' : ((cat.del n).get? n').isSome = true := by
        simpa [pairInComponents, JsObj.get?_set] using hp
      rw [JsObj.get?_del] at hp'
      by_cases hn : n = n'
      · simp [hn] at hp'
      · rw [if_neg hn] at hp'
        simpa [pairInComponents, hcat] using hp'
    · simpa [pairInComponents, JsObj.get?_set, hc] using hp

theorem pairInDeps_trackDependency (m : Metadata) (c n : String) (h : Option String)
    (sp : String) (req : List String) (now c' n' : String)
    (hp : pairInDeps (trackDependency m c n h sp req now) c' n' = true) :
    (c' = c ∧ n' = n) ∨ pairInDeps m c' n' = true := by
  by_cases hc : c = c'
  · subst hc
    by_cases hn : n = n'
    · exact Or.inl ⟨rfl, hn.symm⟩
    · right
      simp only [pairInDeps, trackDependency, JsObj.get?_set, if_pos rfl,
        Option.getD_some] at hp
      simpa [pairInDeps, JsObj.get?_set, hn] using hp
  · right
    simpa [pairInDeps, trackDependency, JsObj.get?_set, hc] using hp

theorem pairInDeps_removeDependency (m : Metadata) (c n c' n' : String)
    (hp : pairInDeps (removeDependency m c n) c' n' = true) :
    pairInDeps m c' n' = true := by
  unfold removeDependency at hp
  rcases hcat : m.resolvedDeps.get? c with _ | cat
  · rwa [hcat] at hp
  · rw [hcat] at hp
    by_cases hc : c = c'
    · subst hc
      have hp' : ((cat.del n).get? n').isSome = true := by
        simpa [pairInDeps, JsObj.get?_set] using hp
      rw [JsObj.get?_del] at hp'
      by_cases hn : n = n'
      · simp [hn] at hp'
      · rw [if_neg hn] at hp'
        simpa [pairInDeps, hcat] using hp'
    · simpa [pairInDeps, JsObj.get?_set, hc] using hp

theorem pairInComponents_removeDependency_eq (m : Metadata) (c n c' n' : String) :
    pairInComponents (removeDependency m c n) c' n' = pairInComponents m c' n' := by
  unfold removeDependency
  rcases m.resolvedDeps.get? c with _ | cat <;> rfl

theorem pairInDeps_trackUninstall_eq (m : Metadata) (c n c' n' : String) :
    pairInDeps (trackUninstall m c n) c' n' = pairInDeps m c' n' := by
  unfold trackUninstall
  rcases m.components.get? c with _ | cat <;> rfl

theorem mem_installPairs_cons (mu : Mutation) (rest : List Mutation) (p : String × String)
    (hp : p ∈ installPairs rest) : p ∈ installPairs (mu :: rest) := by
  cases mu with
  | install c0 n0 h0 sp0 now0 =>
      simp only [installPairs, List.filterMap_cons] at hp ⊢
      exact List.mem_cons_of_mem _ hp
  | uninstall c0 n0 => exact hp
  | dep c0 n0 h0 sp0 req0 now0 => exact hp
  | rmdep c0 n0 => exact hp

theorem mem_depPairs_cons (mu : Mutation) (rest : List Mutation) (p : String × String)
    (hp : p ∈ depPairs rest) : p ∈ depPairs (mu :: rest) := by
  cases mu with
  | install c0 n0 h0 sp0 now0 => exact hp
  | uninstall c0 n0 => exact hp
  | dep c0 n0 h0 sp0 req0 now0 =>
      simp only [depPairs, List.filterMap_cons] at hp ⊢
      exact List.mem_cons_of_mem _ hp
  | rmdep c0 n0 => exact hp

theorem pairInComponents_applyMutations (muts : List Mutation) :
    ∀ (m : Metadata) (c n : String),
      pairInComponents (applyMutations m muts) c n = true →
      pairInComponents m c n = true ∨ (c, n) ∈ installPairs muts := by
  induction muts with
  | nil => exact fun m c n hp => Or.inl hp
  | cons mu rest ih =>
      intro m c n hp
      have hstep : applyMutations m (mu :: rest) = applyMutations (applyMutation m mu) rest := rfl
      rw [hstep] at hp
      rcases ih _ c n hp with hbase | hmem
      · cases mu with
        | install c0 n0 h0 sp0 now0 =>
            rcases pairInComponents_trackInstall m c0 n0 h0 sp0 now0 c n hbase with ⟨rfl, rfl⟩ | hm
            · exact Or.inr (by simp [installPairs, List.filterMap_cons])
            · exact Or.inl hm
        | uninstall c0 n0 =>
            exact Or.inl (pairInComponents_trackUninstall m c0 n0 c n hbase)
        | dep c0 n0 h0 sp0 req0 now0 =>
            exact Or.inl hbase
        | rmdep c0 n0 =>
            simp only [applyMutation] at hbase
            rw [pairInComponents_removeDependency_eq] at hbase
            exact Or.inl hbase
      · exact Or.inr (mem_installPairs_cons mu rest _ hmem)

theorem pairInDeps_applyMutations (muts : List Mutation) :
    ∀ (m : Metadata) (c n : String),
      pairInDeps (applyMutations m muts) c n = true →
      pairInDeps m c n = true ∨ (c, n) ∈ depPairs muts := by
  induction muts with
  | nil => exact fun m c n hp => Or.inl hp
  | cons mu rest ih =>
      intro m c n hp
      have hstep : applyMutations m (mu :: rest) = applyMutations (applyMutation m mu) rest := rfl
      rw [hstep] at hp
      rcases ih _ c n hp with hbase | hmem
      · cases mu with
        | install c0 n0 h0 sp0 now0 =>
            exact Or.inl hbase
        | uninstall c0 n0 =>
            simp only [applyMutation] at hbase
            rw [pairInDeps_trackUninstall_eq] at hbase
            exact Or.inl hbase
        | dep c0 n0 h0 sp0 req0 now0 =>
            rcases pairInDeps_trackDependency m c0 n0 h0 sp0 req0 now0 c n hbase with ⟨rfl, rfl⟩ | hm
            · exact Or.inr (by simp [depPairs, List.filterMap_cons])
            · exact Or.inl hm
        | rmdep c0 n0 =>
            exact Or.inl (pairInDeps_removeDependency m c0 n0 c n hbase)
      · exact Or.inr (mem_depPairs_cons mu rest _ hmem)

theorem pairInComponents_empty (c n : String) :
    pairInComponents createEmptyMetadata c n = false := by
  simp only [pairInComponents, createEmptyMetadata]
  by_cases h1 : ("skills" : String) = c <;> by_cases h2 : ("agents" : String) = c <;>
    by_cases h3 : ("hooks" : String) = c <;> simp [JsObj.get?, h1, h2, h3]

theorem pairInDeps_empty (c n : String) :
    pairInDeps createEmptyMetadata c n = false := by
  simp only [pairInDeps, createEmptyMetadata]
  by_cases h1 : ("mcpServers" : String) = c <;> by_cases h2 : ("agents" : String) = c <;>
    by_cases h3 : ("skills" : String) = c <;> simp [JsObj.get?, h1, h2, h3]

/-- Counterexample for C3: from the empty ledger, `trackDependency` followed by
`trackInstall` for the same `(skills, a)` pair leaves the pair present in both
`resolvedDeps` and `components` — neither mutation removes the entry from the
other map. -/
theorem components_resolvedDeps_not_exclusive :
    pairInComponents (applyMutations createEmptyMetadata c3muts) "skills" "a" = true
    ∧ pairInDeps (applyMutations createEmptyMetadata c3muts) "skills" "a" = true := by
  constructor <;> decide

/-- C3 (amended): the exclusivity invariant holds for every mutation sequence
in which no `(category, name)` pair is passed both to `trackInstall` and to
`trackDependency`; the mutations themselves never remove an entry from the
other map, so sequences mixing the two for one pair (as in the
counterexample) violate it. -/
theorem components_resolvedDeps_exclusive_of_disjoint (muts : List Mutation)
    (hdisj : ∀ c n, (c, n) ∈ installPairs muts → (c, n) ∉ depPairs muts) :
    ∀ c n, ¬ (pairInComponents (applyMutations createEmptyMetadata muts) c n = true
        ∧ pairInDeps (applyMutations createEmptyMetadata muts) c n = true) := by
  rintro c n ⟨hc, hd⟩
  rcases pairInComponents_applyMutations muts createEmptyMetadata c n hc with hbase | hinst
  · rw [pairInComponents_empty] at hbase
    exact Bool.false_ne_true hbase
  · rcases pairInDeps_applyMutations muts createEmptyMetadata c n hd with hbase | hdep
    · rw [pairInDeps_empty] at hbase
      exact Bool.false_ne_true hbase
    · exact hdisj c n hinst hdep

/-- Witness for C3's amended theorem: a sequence that installs `(skills, a)`
directly and tracks `(agents, b)` as a dependency keeps the two maps
disjoint. -/
theorem components_resolvedDeps_exclusive_witness :
    ¬ (pairInComponents (applyMutations createEmptyMetadata
          [Mutation.install "skills" "a" none "sp" "t1",
           Mutation.dep "agents" "b" none "sp" ["S"] "t2"]) "skills" "a" = true
        ∧ pairInDeps (applyMutations createEmptyMetadata
          [Mutation.install "skills" "a" none "sp" "t1",
           Mutation.dep "agents" "b" none "sp" ["S"] "t2"]) "skills" "a" = true) :=
  components_resolvedDeps_exclusive_of_disjoint
    [Mutation.install "skills" "a" none "sp" "t1",
     Mutation.dep "agents" "b" none "sp" ["S"] "t2"]
    (by
      intro c n hc
      simp only [installPairs, depPairs, List.filterMap_cons, List.filterMap_nil] at hc ⊢
      simp only [List.mem_singleton] at hc
      rcases Prod.mk.injEq .. ▸ hc with h
      simp [Prod.ext_iff] at h
      rcases h with ⟨rfl, rfl⟩
      decide) "skills" "a"

/-! ## Merger lemmas (C6, C10) -/

theorem isMarked_markHandler (h : RawHandler) (n : String) :
    isMarked n (markHandler h n) = true := by
  cases h <;> simp [markHandler, isMarked]

theorem findIdx?_set_marked (l : List Handler) (n : String) (i : Nat) (mh : Handler)
    (hfind : l.findIdx? (isMarked n) = some i) (hmh : isMarked n mh = true) :
    (l.set i mh).findIdx? (isMarked n) = some i := by
  rw [List.findIdx?_eq_some_iff_getElem] at hfind ⊢
  obtain ⟨hlen, hp, hbefore⟩ := hfind
  refine ⟨by simpa using hlen, ?_, ?_⟩
  · rw [List.getElem_set_self]
    exact hmh
  · intro j hji
    rw [List.getElem_set_ne (by omega)]
    exact hbefore j hji

theorem findIdx?_none_append (l : List Handler) (n : String) (mh : Handler)
    (hfind : l.findIdx? (isMarked n) = none) (hmh : isMarked n mh = true) :
    (l ++ [mh]).findIdx? (isMarked n) = some l.length := by
  rw [List.findIdx?_eq_none_iff] at hfind
  rw [List.findIdx?_eq_some_iff_getElem]
  refine ⟨by simp, ?_, ?_⟩
  · rw [List.getElem_append_right (by omega)]
    simpa using hmh
  · intro j hji
    rw [List.getElem_append_left hji]
    simp [hfind _ (l.getElem_mem hji)]

theorem set_append_singleton (l : List Handler) (a b : Handler) :
    (l ++ [a]).set l.length b = l ++ [b] := by
  induction l with
  | nil => rfl
  | cons x xs ih => simp [List.set, ih]

theorem mergeHookEvent_replace (n : String) (handlers : List RawHandler) :
    ∀ (l : List Handler) (i : Nat) (hlast : RawHandler),
      l.findIdx? (isMarked n) = some i → handlers.getLast? = some hlast →
      mergeHookEvent l n handlers = l.set i (markHandler hlast n) := by
  induction handlers with
  | nil => intro l i hlast _ hl; cases hl
  | cons h rest ih =>
      intro l i hlast hfind hlastEq
      have hstep : mergeHookEvent l n (h :: rest)
          = mergeHookEvent (l.set i (markHandler h n)) n rest := by
        simp [mergeHookEvent, hfind]
      rw [hstep]
      cases rest with
      | nil =>
          simp only [List.getLast?_singleton, Option.some.injEq] at hlastEq
          subst hlastEq
          rfl
      | cons h2 rest2 =>
          rw [List.getLast?_cons_cons] at hlastEq
          rw [ih (l.set i (markHandler h n)) i hlast
            (findIdx?_set_marked l n i _ hfind (isMarked_markHandler h n)) hlastEq]
          rw [List.set_set]

theorem mergeHookEvent_append (n : String) (handlers : List RawHandler)
    (l : List Handler) (hlast : RawHandler)
    (hfind : l.findIdx? (isMarked n) = none) (hlastEq : handlers.getLast? = some hlast) :
    mergeHookEvent l n handlers = l ++ [markHandler hlast n] := by
  cases handlers with
  | nil => cases hlastEq
  | cons h rest =>
      have hstep : mergeHookEvent l n (h :: rest)
          = mergeHookEvent (l ++ [markHandler h n]) n rest := by
        simp [mergeHookEvent, hfind]
      rw [hstep]
      cases rest with
      | nil =>
          simp only [List.getLast?_singleton, Option.some.injEq] at hlastEq
          subst hlastEq
          rfl
      | cons h2 rest2 =>
          rw [List.getLast?_cons_cons] at hlastEq
          rw [mergeHookEvent_replace n (h2 :: rest2) (l ++ [markHandler h n]) l.length hlast
            (findIdx?_none_append l n _ hfind (isMarked_markHandler h n)) hlastEq]
          exact set_append_singleton l _ _

theorem get?_foldl_set_not_mem (n ev : String) (rest : List (String × List RawHandler)) :
    ev ∉ rest.map Prod.fst →
    ∀ hooks : JsObj (List Handler),
      (rest.foldl (fun hooks kv =>
        hooks.set kv.1 (mergeHookEvent ((hooks.get? kv.1).getD []) n kv.2)) hooks).get? ev
      = hooks.get? ev := by
  induction rest with
  | nil => intro _ hooks; rfl
  | cons kv rest2 ih =>
      intro hev hooks
      simp only [List.map_cons, List.mem_cons, not_or] at hev
      rw [List.foldl_cons, ih hev.2 _, JsObj.get?_set, if_neg (fun h => hev.1 h.symm)]

theorem mergeHook_get?_of_mem (settings : SettingsDoc) (n : String) (config : HookConfig)
    (ev : String) (handlers : List RawHandler)
    (hnod : (config.map Prod.fst).Nodup) (hget : config.get? ev = some handlers) :
    ((mergeHook settings n config).hooks.getD []).get? ev
      = some (mergeHookEvent (((settings.hooks.getD []).get? ev).getD []) n handlers) := by
  show ((some (config.foldl _ (settings.hooks.getD []))).getD []).get? ev = _
  rw [Option.getD_some]
  generalize settings.hooks.getD [] = hooks0
  induction config generalizing hooks0 with
  | nil => cases hget
  | cons kv rest ih =>
      obtain ⟨k1, h1⟩ := kv
      simp only [List.map_cons, List.nodup_cons] at hnod
      by_cases hk : k1 = ev
      · subst hk
        have h1eq : h1 = handlers := by
          simpa [JsObj.get?] using hget
        subst h1eq
        rw [List.foldl_cons, get?_foldl_set_not_mem n k1 rest hnod.1]
        rw [JsObj.get?_set, if_pos rfl]
      · have hget' : JsObj.get? rest ev = some handlers := by
          simpa [JsObj.get?, hk] using hget
        rw [List.foldl_cons, ih hnod.2 hget']
        rw [JsObj.get?_set, if_neg hk]

/-- C6: merging a hook whose marker already sits at index `i` of an event's
handler list replaces that element in place (the list is a `List.set` at `i`,
so its length and every other position are unchanged); when the marker is
absent the new marked handler is appended.  In both cases the handler written
is the marked form of the *last* declared handler. -/
theorem mergeHook_replace_in_place (settings : SettingsDoc) (hookName : String)
    (config : HookConfig) (ev : String) (handlers : List RawHandler) (hlast : RawHandler)
    (hnod : (config.map Prod.fst).Nodup) (hget : config.get? ev = some handlers)
    (hlastEq : handlers.getLast? = some hlast) :
    (∀ i, (((settings.hooks.getD []).get? ev).getD []).findIdx? (isMarked hookName) = some i →
      ((mergeHook settings hookName config).hooks.getD []).get? ev
        = some ((((settings.hooks.getD []).get? ev).getD []).set i (markHandler hlast hookName))
      ∧ ((((settings.hooks.getD []).get? ev).getD []).set i
          (markHandler hlast hookName)).length
        = (((settings.hooks.getD []).get? ev).getD []).length)
    ∧ ((((settings.hooks.getD []).get? ev).getD []).findIdx? (isMarked hookName) = none →
      ((mergeHook settings hookName config).hooks.getD []).get? ev
        = some ((((settings.hooks.getD []).get? ev).getD [])
            ++ [markHandler hlast hookName])) := by
  constructor
  · intro i hfind
    constructor
    · rw [mergeHook_get?_of_mem settings hookName config ev handlers hnod hget,
        mergeHookEvent_replace hookName handlers _ i hlast hfind hlastEq]
    · simp
  · intro hfind
    rw [mergeHook_get?_of_mem settings hookName config ev handlers hnod hget,
      mergeHookEvent_append hookName handlers _ hlast hfind hlastEq]

/-- Witness for C6: hook `H` with handler command `b` replaces its previously
merged handler in place at index 0 (before an unmarked user handler), and a
hook `K` with no marker present is appended. -/
theorem mergeHook_replace_in_place_witness :
    ((mergeHook { hooks := some [("Stop",
        [{ body := "a", cmdWrapped := true, hands := some "H" },
         { body := "user", cmdWrapped := false, hands := none }])] } "H"
        [("Stop", [RawHandler.cmd "b"])]).hooks.getD []).get? "Stop"
      = some ([({ body := "a", cmdWrapped := true, hands := some "H" } : Handler),
         { body := "user", cmdWrapped := false, hands := none }].set 0
          (markHandler (RawHandler.cmd "b") "H"))
    ∧ ((mergeHook { hooks := some [("Stop",
        [{ body := "user", cmdWrapped := false, hands := none }])] } "K"
        [("Stop", [RawHandler.cmd "c"])]).hooks.getD []).get? "Stop"
      = some ([({ body := "user", cmdWrapped := false, hands := none } : Handler)]
          ++ [markHandler (RawHandler.cmd "c") "K"]) := by
  constructor
  · exact ((mergeHook_replace_in_place { hooks := some [("Stop",
      [{ body := "a", cmdWrapped := true, hands := some "H" },
       { body := "user", cmdWrapped := false, hands := none }])] } "H"
      [("Stop", [RawHandler.cmd "b"])] "Stop" [RawHandler.cmd "b"] (RawHandler.cmd "b")
      (by decide) (by decide) (by decide)).1 0 (by decide)).1
  · exact (mergeHook_replace_in_place { hooks := some [("Stop",
      [{ body := "user", cmdWrapped := false, hands := none }])] } "K"
      [("Stop", [RawHandler.cmd "c"])] "Stop" [RawHandler.cmd "c"] (RawHandler.cmd "c")
      (by decide) (by decide) (by decide)).2 (by decide)

theorem findIdx?_cons_zero (x : Handler) (xs : List Handler) (p : Handler → Bool) :
    (x :: xs).findIdx? p = if p x then some 0 else (xs.findIdx? p).map (· + 1) := by
  rw [List.findIdx?_cons, List.findIdx?_succ]

theorem countMarked_cons (n : String) (x : Handler) (xs : List Handler) :
    countMarked n (x :: xs)
      = (if isMarked n x then 1 else 0) + countMarked n xs := by
  simp only [countMarked, List.filter_cons]
  split <;> simp [Nat.add_comm]

theorem countMarked_append_one (n : String) (l : List Handler) (mh : Handler) :
    countMarked n (l ++ [mh])
      = countMarked n l + (if isMarked n mh then 1 else 0) := by
  by_cases h : isMarked n mh <;>
    simp [countMarked, List.filter_append, List.filter_cons, h]

theorem countMarked_zero_of_findIdx?_none (n : String) (l : List Handler)
    (hfind : l.findIdx? (isMarked n) = none) : countMarked n l = 0 := by
  rw [List.findIdx?_eq_none_iff] at hfind
  simp only [countMarked, List.length_eq_zero]
  rw [List.filter_eq_nil_iff]
  intro a ha
  simp [hfind a ha]

theorem countMarked_set_same_hands (n' : String) :
    ∀ (l : List Handler) (i : Nat) (mh : Handler) (hi : i < l.length),
      mh.hands = (l.get ⟨i, hi⟩).hands →
      countMarked n' (l.set i mh) = countMarked n' l := by
  intro l
  induction l with
  | nil =>
      intro i mh hi
      exact absurd hi (Nat.not_lt_zero i)
  | cons x xs ih =>
      intro i mh hi hsame
      cases i with
      | zero =>
          simp only [List.get] at hsame
          simp only [List.set, countMarked_cons]
          have heq : isMarked n' mh = isMarked n' x := by
            simp [isMarked, hsame]
          rw [heq]
      | succ j =>
          simp only [List.get] at hsame
          simp only [List.set, countMarked_cons]
          rw [ih j mh (Nat.lt_of_succ_lt_succ hi) hsame]

theorem filter_set_first_marked (n : String) :
    ∀ (l : List Handler) (i : Nat) (mh : Handler),
      l.findIdx? (isMarked n) = some i → countMarked n l ≤ 1 → isMarked n mh = true →
      (l.set i mh).filter (isMarked n) = [mh] := by
  intro l
  induction l with
  | nil => intro i mh hfind; cases hfind
  | cons x xs ih =>
      intro i mh hfind hcount hmh
      rw [findIdx?_cons_zero] at hfind
      by_cases hx : isMarked n x
      · rw [if_pos hx, Option.some.injEq] at hfind
        subst hfind
        rw [countMarked_cons, if_pos hx] at hcount
        have hzero : countMarked n xs = 0 := by omega
        have hnil : xs.filter (isMarked n) = [] := by
          simpa [countMarked, List.length_eq_zero] using hzero
        show ((mh :: xs).filter (isMarked n)) = [mh]
        simp [List.filter_cons, hmh, hnil]
      · rw [if_neg hx] at hfind
        rcases hj : xs.findIdx? (isMarked n) with _ | j
        · rw [hj] at hfind; cases hfind
        · rw [hj] at hfind
          have hij : j + 1 = i := by simpa using hfind
          subst hij
          rw [countMarked_cons, if_neg hx] at hcount
          show ((x :: xs.set j mh).filter (isMarked n)) = [mh]
          rw [List.filter_cons, if_neg hx]
          exact ih j mh hj (by omega) hmh

theorem hands_markHandler (h : RawHandler) (n : String) :
    (markHandler h n).hands = some n := by
  cases h <;> rfl

theorem countMarked_mergeHookEvent_le (l : List Handler) (hookName n' : String)
    (handlers : List RawHandler) (hle : countMarked n' l ≤ 1) :
    countMarked n' (mergeHookEvent l hookName handlers) ≤ 1 := by
  cases hhl : handlers.getLast? with
  | none =>
      rw [List.getLast?_eq_none_iff] at hhl
      subst hhl
      exact hle
  | some hlast =>
      rcases hfind : l.findIdx? (isMarked hookName) with _ | i
      · rw [mergeHookEvent_append hookName handlers l hlast hfind hhl]
        rw [countMarked_append_one]
        by_cases hn : n' = hookName
        · subst hn
          rw [countMarked_zero_of_findIdx?_none n' l hfind]
          split <;> omega
        · have hnm : isMarked n' (markHandler hlast hookName) = false := by
            have hne2 : ¬ hookName = n' := fun hh => hn hh.symm
            simp [isMarked, hands_markHandler, hne2]
          rw [hnm]
          simpa using hle
      · rw [mergeHookEvent_replace hookName handlers l i hlast hfind hhl]
        obtain ⟨hi, hpi, -⟩ := List.findIdx?_eq_some_iff_getElem.mp hfind
        have hhands : (markHandler hlast hookName).hands = (l.get ⟨i, hi⟩).hands := by
          rw [hands_markHandler]
          have hli : (l.get ⟨i, hi⟩).hands = some hookName := by
            have := hpi
            simp only [isMarked, decide_eq_true_eq] at this
            simpa [List.get_eq_getElem] using this
          rw [hli]
        rw [countMarked_set_same_hands n' l i (markHandler hlast hookName) hi hhands]
        exact hle

theorem get?_mem {α : Type} (m : JsObj α) (k : String) (v : α)
    (h : JsObj.get? m k = some v) : (k, v) ∈ m := by
  induction m with
  | nil => cases h
  | cons kv rest ih =>
      obtain ⟨a, b⟩ := kv
      by_cases hak : a = k
      · subst hak
        have hbv : b = v := by simpa [JsObj.get?] using h
        subst hbv
        exact List.mem_cons_self _ _
      · simp only [JsObj.get?, if_neg hak] at h
        exact List.mem_cons_of_mem _ (ih h)

theorem mem_set {α : Type} (m : JsObj α) (k : String) (v : α) (p : String × α)
    (h : p ∈ m.set k v) : p ∈ m ∨ p = (k, v) := by
  induction m with
  | nil =>
      simp only [JsObj.set, List.mem_singleton] at h
      exact Or.inr h
  | cons kv rest ih =>
      obtain ⟨a, b⟩ := kv
      by_cases hak : a = k
      · subst hak
        rw [show JsObj.set ((a, b) :: rest) a v = (a, v) :: rest from by
          simp [JsObj.set]] at h
        rcases List.mem_cons.mp h with rfl | h2
        · exact Or.inr rfl
        · exact Or.inl (List.mem_cons_of_mem _ h2)
      · rw [show JsObj.set ((a, b) :: rest) k v = (a, b) :: JsObj.set rest k v from by
          simp [JsObj.set, hak]] at h
        rcases List.mem_cons.mp h with rfl | h2
        · exact Or.inl (List.mem_cons_self _ _)
        · rcases ih h2 with h3 | h3
          · exact Or.inl (List.mem_cons_of_mem _ h3)
          · exact Or.inr h3

theorem mergeHook_fold_le (hookName : String) :
    ∀ (config : HookConfig) (hooks : JsObj (List Handler)),
      (∀ ev l n, (ev, l) ∈ hooks → countMarked n l ≤ 1) →
      ∀ ev l n, (ev, l) ∈ (config.foldl (fun hooks kv =>
          hooks.set kv.1 (mergeHookEvent ((hooks.get? kv.1).getD []) hookName kv.2)) hooks) →
        countMarked n l ≤ 1 := by
  intro config
  induction config with
  | nil => intro hooks hph ev l n hg; exact hph ev l n hg
  | cons kv rest ih =>
      intro hooks hph ev l n hg
      rw [List.foldl_cons] at hg
      refine ih _ ?_ ev l n hg
      intro ev2 l2 n2 hg2
      rcases mem_set _ _ _ _ hg2 with hm | heq
      · exact hph ev2 l2 n2 hm
      · have hl2 : l2 = mergeHookEvent ((hooks.get? kv.1).getD []) hookName kv.2 := by
          have := congrArg Prod.snd heq
          simpa using this
        rw [hl2]
        refine countMarked_mergeHookEvent_le _ hookName n2 kv.2 ?_
        rcases hcur : hooks.get? kv.1 with _ | cur
        · simp [countMarked]
        · simpa using hph kv.1 cur n2 (get?_mem _ _ _ hcur)

theorem markerInvariant_mergeHook (settings : SettingsDoc) (hookName : String)
    (config : HookConfig) (hinv : markerInvariant settings) :
    markerInvariant (mergeHook settings hookName config) := by
  intro ev l n hget
  have hrw : (mergeHook settings hookName config).hooks.getD []
      = config.foldl (fun hooks kv =>
          hooks.set kv.1 (mergeHookEvent ((hooks.get? kv.1).getD []) hookName kv.2))
        (settings.hooks.getD []) := rfl
  rw [hrw] at hget
  exact mergeHook_fold_le hookName config (settings.hooks.getD [])
    (fun ev2 l2 n2 hm => hinv ev2 l2 n2 hm) ev l n hget

theorem countMarked_filter_le (n m : String) (l : List Handler) :
    countMarked n (l.filter (fun h => ¬ isMarked m h)) ≤ countMarked n l := by
  exact List.Sublist.length_le ((List.filter_sublist l).filter (isMarked n))

theorem markerInvariant_removeHook (settings : SettingsDoc) (hookName : String)
    (hinv : markerInvariant settings) :
    markerInvariant (removeHook settings hookName) := by
  intro ev l n hget
  rcases hh : settings.hooks with _ | hooks
  · unfold removeHook at hget
    rw [hh] at hget
    exact hinv ev l n hget
  · unfold removeHook at hget
    rw [hh] at hget
    simp only [Option.getD_some] at hget
    have hmem := (List.mem_filter.mp hget).1
    rw [List.mem_map] at hmem
    obtain ⟨⟨ev0, l0⟩, hmem0, heq⟩ := hmem
    cases heq
    calc countMarked n (l0.filter (fun h => ¬ isMarked hookName h))
        ≤ countMarked n l0 := countMarked_filter_le n hookName l0
      _ ≤ 1 := hinv ev0 l0 n (by rw [hh]; exact hmem0)

theorem settings_stTrackInstall (st : SyncState) (c n : String) (h : Option String)
    (sp now : String) : (stTrackInstall st c n h sp now).settings = st.settings := rfl

theorem settings_stTrackUninstall (st : SyncState) (c n : String) :
    (stTrackUninstall st c n).settings = st.settings := rfl

theorem settings_stMergeHook (st : SyncState) (n : String) (c : HookConfig) :
    (stMergeHook st n c).settings = mergeHook st.settings n c := rfl

theorem settings_stRemoveHook (st : SyncState) (n : String) :
    (stRemoveHook st n).settings = removeHook st.settings n := by
  unfold stRemoveHook removeHook
  rcases st.settings.hooks with _ | hooks <;> rfl

theorem settings_foldl_invariant {β : Type} (f : SyncState → β → SyncState)
    (hf : ∀ st b, markerInvariant st.settings → markerInvariant (f st b).settings) :
    ∀ (l : List β) (st : SyncState), markerInvariant st.settings →
      markerInvariant ((l.foldl f st).settings) := by
  intro l
  induction l with
  | nil => exact fun st h => h
  | cons x xs ih =>
      intro st h
      rw [List.foldl_cons]
      exact ih _ (hf st x h)

theorem markerInvariant_syncHooks (st : SyncState) (selectedHooks : List HookComp)
    (trackedHooks : JsObj CompEntry) (now : String)
    (hinv : markerInvariant st.settings) :
    markerInvariant (syncHooks st selectedHooks trackedHooks now).settings := by
  have h1 : markerInvariant ((selectedHooks.foldl (fun st hook =>
      stTrackInstall (stMergeHook st hook.name hook.config) "hooks" hook.name
        (some (hookConfigHash hook.config)) hook.sourcePath now) st).settings) := by
    refine settings_foldl_invariant _ ?_ selectedHooks st hinv
    intro st2 hook h2
    rw [settings_stTrackInstall, settings_stMergeHook]
    exact markerInvariant_mergeHook st2.settings hook.name hook.config h2
  have h2 : ∀ st2 : SyncState, markerInvariant st2.settings →
      ∀ kv : String × CompEntry, markerInvariant ((if kv.1 ∈ selectedHooks.map (fun h => h.name)
        then st2 else stTrackUninstall (stRemoveHook st2 kv.1) "hooks" kv.1).settings) := by
    intro st2 hs kv
    by_cases hmem : kv.1 ∈ selectedHooks.map (fun h => h.name)
    · rw [if_pos hmem]
      exact hs
    · rw [if_neg hmem, settings_stTrackUninstall, settings_stRemoveHook]
      exact markerInvariant_removeHook st2.settings kv.1 hs
  simp only [syncHooks]
  exact settings_foldl_invariant _ (fun st2 kv hs => h2 st2 hs kv) trackedHooks _ h1

/-- C10: every event list of the settings document holds at most one handler
per owner marker; `mergeHook`, `removeHook` and `syncHooks` all preserve this
invariant; and merging a hook whose configuration lists several handlers for
one event leaves exactly one marked handler — the marked form of the *last*
handler, each having replaced the previous one — not one per list element. -/
theorem at_most_one_marked_handler :
    (∀ (settings : SettingsDoc) (hookName : String) (config : HookConfig),
      markerInvariant settings → markerInvariant (mergeHook settings hookName config))
    ∧ (∀ (settings : SettingsDoc) (hookName : String),
      markerInvariant settings → markerInvariant (removeHook settings hookName))
    ∧ (∀ (st : SyncState) (selectedHooks : List HookComp) (trackedHooks : JsObj CompEntry)
        (now : String), markerInvariant st.settings →
      markerInvariant (syncHooks st selectedHooks trackedHooks now).settings)
    ∧ (∀ (l : List Handler) (hookName : String) (handlers : List RawHandler)
        (hlast : RawHandler),
        countMarked hookName l ≤ 1 → handlers.getLast? = some hlast →
        (mergeHookEvent l hookName handlers).filter (isMarked hookName)
            = [markHandler hlast hookName]
          ∧ countMarked hookName (mergeHookEvent l hookName handlers) = 1) := by
  refine ⟨markerInvariant_mergeHook, markerInvariant_removeHook,
    markerInvariant_syncHooks, ?_⟩
  intro l hookName handlers hlast hcount hlastEq
  have hfilter : (mergeHookEvent l hookName handlers).filter (isMarked hookName)
      = [markHandler hlast hookName] := by
    rcases hfind : l.findIdx? (isMarked hookName) with _ | i
    · rw [mergeHookEvent_append hookName handlers l hlast hfind hlastEq]
      rw [List.filter_append]
      have hnil : l.filter (isMarked hookName) = [] := by
        rw [List.filter_eq_nil_iff]
        intro a ha
        rw [List.findIdx?_eq_none_iff] at hfind
        simp [hfind a ha]
      rw [hnil]
      simp [isMarked_markHandler]
    · rw [mergeHookEvent_replace hookName handlers l i hlast hfind hlastEq]
      exact filter_set_first_marked hookName l i _ hfind hcount
        (isMarked_markHandler hlast hookName)
  refine ⟨hfilter, ?_⟩
  rw [countMarked, hfilter]
  rfl

/-- Witness for C10: merging a two-handler configuration for hook `H` into a
list holding one unmarked user handler yields exactly one `H`-marked handler,
the marked form of the second declared handler; the three invariant clauses
are applied to a fresh settings document. -/
theorem at_most_one_marked_handler_witness :
    markerInvariant (mergeHook { hooks := none } "H" [("Stop", [RawHandler.cmd "a"])])
    ∧ markerInvariant (removeHook { hooks := none } "H")
    ∧ markerInvariant (syncHooks emptyState [hookDemo] [] "t").settings
    ∧ ((mergeHookEvent [{ body := "user", cmdWrapped := false, hands := none }] "H"
          [RawHandler.cmd "a", RawHandler.cmd "b"]).filter (isMarked "H")
        = [markHandler (RawHandler.cmd "b") "H"]
      ∧ countMarked "H" (mergeHookEvent [{ body := "user", cmdWrapped := false, hands := none }]
          "H" [RawHandler.cmd "a", RawHandler.cmd "b"]) = 1) := by
  have hempty : markerInvariant ({ hooks := none } : SettingsDoc) :=
    fun ev l n h => absurd h (List.not_mem_nil _)
  refine ⟨at_most_one_marked_handler.1 { hooks := none } "H" [("Stop", [RawHandler.cmd "a"])]
      hempty,
    at_most_one_marked_handler.2.1 { hooks := none } "H" hempty,
    at_most_one_marked_handler.2.2.1 emptyState [hookDemo] [] "t"
      (fun ev l n h => absurd h (List.not_mem_nil _)),
    at_most_one_marked_handler.2.2.2 [{ body := "user", cmdWrapped := false, hands := none }]
      "H" [RawHandler.cmd "a", RawHandler.cmd "b"] (RawHandler.cmd "b")
      (by decide) (by decide)⟩

/-! ## C1 — the circular-dependency error branch is unreachable -/

theorem resolveMcpRefs_fields (ctx : ResolveCtx) (sn : String) (names : List String) :
    ∀ st : ResolveState, (resolveMcpRefs ctx sn names st).errors = st.errors
      ∧ (resolveMcpRefs ctx sn names st).resolved = st.resolved := by
  induction names with
  | nil => intro st; exact ⟨rfl, rfl⟩
  | cons nm rest ih =>
      intro st
      show (resolveMcpRefs ctx sn rest _).errors = _ ∧ (resolveMcpRefs ctx sn rest _).resolved = _
      by_cases hmem : nm ∈ ctx.mcpServerNames
      · simp only [hmem, if_pos]
        exact ih _
      · simp only [hmem, if_neg, not_false_eq_true]
        exact ih _

theorem resolveAgentRef_fields (ctx : ResolveCtx) (sn : String) (agent : Option String)
    (st : ResolveState) :
    (resolveAgentRef ctx sn agent st).errors = st.errors
      ∧ (resolveAgentRef ctx sn agent st).resolved = st.resolved := by
  unfold resolveAgentRef
  rcases agent with _ | a
  · exact ⟨rfl, rfl⟩
  · by_cases h1 : a = "" <;> by_cases h2 : a ∈ ctx.agentNames <;>
      by_cases h3 : a ∈ ctx.userSelectedAgentNames <;> simp [h1, h2, h3]

theorem resolveSkill_inv (ctx : ResolveCtx) :
    ∀ (fuel : Nat) (skill : SkillComp) (chain : List String) (st : ResolveState),
      chain ⊆ st.resolved →
      (resolveSkill ctx fuel skill chain st).errors = st.errors
        ∧ st.resolved ⊆ (resolveSkill ctx fuel skill chain st).resolved := by
  intro fuel
  induction fuel with
  | zero => intro skill chain st hsub; exact ⟨rfl, fun x hx => hx⟩
  | succ fuel ih =>
      intro skill chain st hsub
      rw [resolveSkill]
      by_cases h1 : skill.name ∈ st.resolved
      · simp [h1]
      · have h2 : skill.name ∉ chain := fun hc => h1 (hsub hc)
        simp only [h1, h2, if_neg, not_false_eq_true]
        rcases skill.manifest with _ | manifest
        · exact ⟨rfl, fun x hx => List.mem_append_left _ hx⟩
        · set st1 : ResolveState := { st with resolved := st.resolved ++ [skill.name] }
          set chain' := chain ++ [skill.name]
          have hmcp := resolveMcpRefs_fields ctx skill.name (manifest.mcpServers.getD []) st1
          set st2 := resolveMcpRefs ctx skill.name (manifest.mcpServers.getD []) st1
          have hag := resolveAgentRef_fields ctx skill.name manifest.agent st2
          set st3 := resolveAgentRef ctx skill.name manifest.agent st2
          have hsub3 : chain' ⊆ st3.resolved := by
            rw [hag.2, hmcp.2]
            intro x hx
            rcases List.mem_append.mp hx with hx | hx
            · exact List.mem_append_left _ (hsub hx)
            · exact List.mem_append_right _ hx
          have hfold : ∀ (deps : List String) (s : ResolveState), chain' ⊆ s.resolved →
              ((deps.foldl (fun st depName =>
                match ctx.skillMap.get? depName with
                | some depSkill =>
                    let st :=
                      if depName ∈ ctx.userSelectedSkillNames then st
                      else { st with
                        requiredSkills := addRequired st.requiredSkills depName skill.name }
                    resolveSkill ctx fuel depSkill chain' st
                | none =>
                    { st with warnings := st.warnings ++ [skillWarning skill.name depName] })
                s).errors = s.errors
              ∧ s.resolved ⊆ (deps.foldl (fun st depName =>
                match ctx.skillMap.get? depName with
                | some depSkill =>
                    let st :=
                      if depName ∈ ctx.userSelectedSkillNames then st
                      else { st with
                        requiredSkills := addRequired st.requiredSkills depName skill.name }
                    resolveSkill ctx fuel depSkill chain' st
                | none =>
                    { st with warnings := st.warnings ++ [skillWarning skill.name depName] })
                s).resolved) := by
            intro deps
            induction deps with
            | nil => intro s hs; exact ⟨rfl, fun x hx => hx⟩
            | cons d rest ihd =>
                intro s hs
                rw [List.foldl_cons]
                rcases hd : ctx.skillMap.get? d with _ | depSkill
                · simp only [hd]
                  have hrec := ihd { s with
                    warnings := s.warnings ++ [skillWarning skill.name d] } hs
                  exact ⟨hrec.1, hrec.2⟩
                · simp only [hd]
                  by_cases hu : d ∈ ctx.userSelectedSkillNames
                  · simp only [hu, if_pos]
                    have hstep := ih depSkill chain' s hs
                    have hrec := ihd (resolveSkill ctx fuel depSkill chain' s)
                      (fun x hx => hstep.2 (hs hx))
                    exact ⟨hrec.1.trans hstep.1, fun x hx => hrec.2 (hstep.2 hx)⟩
                  · simp only [hu, if_neg, not_false_eq_true]
                    set s1 : ResolveState := { s with
                      requiredSkills := addRequired s.requiredSkills d skill.name }
                    have hstep := ih depSkill chain' s1 hs
                    have hrec := ihd (resolveSkill ctx fuel depSkill chain' s1)
                      (fun x hx => hstep.2 (hs hx))
                    exact ⟨hrec.1.trans hstep.1, fun x hx => hrec.2 (hstep.2 hx)⟩
          have hmain := hfold (manifest.skills.getD []) st3 hsub3
          refine ⟨hmain.1.trans (hag.1.trans hmcp.1), ?_⟩
          intro x hx
          refine hmain.2 ?_
          rw [hag.2, hmcp.2]
          exact List.mem_append_left _ hx

theorem resolveDependencies_errors_nil (inp : ResolveInput) :
    (resolveDependencies inp).errors = [] := by
  unfold resolveDependencies
  set ctx : ResolveCtx :=
    { mcpServerNames := inp.poolMcpNames
      agentNames := inp.allAgentNames
      skillMap := inp.allSkills.map (fun s => (s.name, s))
      userSelectedSkillNames := inp.selectedSkills.map (·.name)
      userSelectedAgentNames := inp.selectedAgentNames } with hctx
  set fuel := inp.allSkills.length + 1 with hfuel
  have h1 : ∀ (skills : List SkillComp) (st : ResolveState), st.errors = [] →
      (skills.foldl (fun st skill => resolveSkill ctx fuel skill [] st) st).errors = [] := by
    intro skills
    induction skills with
    | nil => intro st h; exact h
    | cons sk rest ihs =>
        intro st h
        rw [List.foldl_cons]
        refine ihs _ ?_
        rw [(resolveSkill_inv ctx fuel sk [] st (List.nil_subset _)).1]
        exact h
  have h2 : ∀ (l : List (String × List String)) (st : ResolveState), st.errors = [] →
      (l.foldl (fun st kv =>
        match kv.2.head? with
        | some firstRequirer =>
            match ctx.skillMap.get? firstRequirer with
            | some depSkill => resolveSkill ctx fuel depSkill [] st
            | none => st
        | none => st) st).errors = [] := by
    intro l
    induction l with
    | nil => intro st h; exact h
    | cons kv rest ihs =>
        intro st h
        rw [List.foldl_cons]
        refine ihs _ ?_
        rcases hh : kv.2.head? with _ | fr
        · simp only [hh]
          exact h
        · simp only [hh]
          rcases hd : ctx.skillMap.get? fr with _ | depSkill
          · simp only [hd]
            exact h
          · simp only [hd]
            rw [(resolveSkill_inv ctx fuel depSkill [] st (List.nil_subset _)).1]
            exact h
  exact h2 _ _ (h1 inp.selectedSkills _ rfl)

/-- C1: the cycle-detection branch of `resolveSkill` is unreachable — every
name on the active chain is already in the global `resolved` set, and the
`resolved` guard returns first — so `resolveDependencies` returns an empty
`errors` list on every input.  In particular, for the two-skill cycle
`A -> B -> A` with `A` selected, no circular-dependency error is recorded and
`B` is still resolved as an installable dependency, contradicting the claimed
cycle rejection (the abort path in `syncComponents` never triggers). -/
theorem resolveDependencies_never_reports_cycles :
    (∀ inp : ResolveInput, (resolveDependencies inp).errors = [])
    ∧ (resolveDependencies cycInput).errors = []
    ∧ (resolveDependencies cycInput).skills = [("B", ["A"])] := by
  refine ⟨resolveDependencies_errors_nil, resolveDependencies_errors_nil cycInput, ?_⟩
  decide

/-! ## C8 — orphan detection and the single-pass retained set -/

theorem any_mem_mono (l cur cur2 : List String) (hsub : cur ⊆ cur2)
    (h : l.any (fun s => s ∈ cur) = true) : l.any (fun s => s ∈ cur2) = true := by
  rw [List.any_eq_true] at h ⊢
  obtain ⟨x, hx, hxc⟩ := h
  exact ⟨x, hx, by simp only [decide_eq_true_eq] at hxc ⊢; exact hsub hxc⟩

theorem specRetainedStep_infl (deps : List (String × DepEntry)) :
    ∀ cur : List String, cur ⊆ specRetainedStep deps cur := by
  induction deps with
  | nil => exact fun cur x hx => hx
  | cons kv rest ih =>
      intro cur
      show cur ⊆ rest.foldl _ _
      refine Set.Subset.trans ?_ (ih _)
      by_cases hc : kv.2.requiredBy.any (fun s => s ∈ cur) = true
      · simp only [hc, if_pos]
        by_cases hm : kv.1 ∈ cur
        · simp [hm]
        · simp only [hm, if_neg, not_false_eq_true]
          exact List.subset_append_left _ _
      · simp only [hc, if_neg, not_false_eq_true]
        exact fun x hx => hx

theorem specRetainedStep_mono (deps : List (String × DepEntry)) :
    ∀ cur cur2 : List String, cur ⊆ cur2 →
      specRetainedStep deps cur ⊆ specRetainedStep deps cur2 := by
  induction deps with
  | nil => exact fun cur cur2 h => h
  | cons kv rest ih =>
      intro cur cur2 hsub
      show rest.foldl _ _ ⊆ rest.foldl _ _
      refine ih _ _ ?_
      by_cases hc : kv.2.requiredBy.any (fun s => s ∈ cur) = true
      · have hc2 : kv.2.requiredBy.any (fun s => s ∈ cur2) = true :=
          any_mem_mono _ _ _ hsub hc
        simp only [hc, hc2, if_pos]
        by_cases hm : kv.1 ∈ cur
        · by_cases hm2 : kv.1 ∈ cur2
          · simp only [hm, hm2, if_pos]
            exact hsub
          · exact absurd (hsub hm) hm2
        · simp only [hm, if_neg, not_false_eq_true]
          by_cases hm2 : kv.1 ∈ cur2
          · simp only [hm2, if_pos]
            intro x hx
            rcases List.mem_append.mp hx with hx | hx
            · exact hsub hx
            · rw [List.mem_singleton] at hx
              subst hx
              exact hm2
          · simp only [hm2, if_neg, not_false_eq_true]
            intro x hx
            rcases List.mem_append.mp hx with hx | hx
            · exact List.mem_append_left _ (hsub hx)
            · exact List.mem_append_right _ hx
      · simp only [hc, if_neg, not_false_eq_true]
        by_cases hc2 : kv.2.requiredBy.any (fun s => s ∈ cur2) = true
        · simp only [hc2, if_pos]
          refine Set.Subset.trans hsub ?_
          by_cases hm2 : kv.1 ∈ cur2
          · simp [hm2]
          · simp only [hm2, if_neg, not_false_eq_true]
            exact List.subset_append_left _ _
        · simp only [hc2, if_neg, not_false_eq_true]
          exact hsub

theorem specRetainedStep_mem_of_required (deps : List (String × DepEntry)) :
    ∀ (cur : List String) (name : String) (e : DepEntry), (name, e) ∈ deps →
      e.requiredBy.any (fun s => s ∈ cur) = true →
      name ∈ specRetainedStep deps cur := by
  induction deps with
  | nil => intro cur name e hmem; cases hmem
  | cons kv rest ih =>
      intro cur name e hmem hreq
      rcases List.mem_cons.mp hmem with heq | hmem2
      · subst heq
        show name ∈ rest.foldl _ _
        refine (specRetainedStep_infl rest _) ?_
        simp only [hreq, if_pos]
        by_cases hm : name ∈ cur
        · simp [hm]
        · simp only [hm, if_neg, not_false_eq_true]
          exact List.mem_append_right _ (List.mem_singleton.mpr rfl)
      · show name ∈ rest.foldl _ _
        have hstep : cur ⊆ (if kv.2.requiredBy.any (fun s => s ∈ cur) = true then
            (if kv.1 ∈ cur then cur else cur ++ [kv.1]) else cur) := by
          by_cases hc : kv.2.requiredBy.any (fun s => s ∈ cur) = true
          · simp only [hc, if_pos]
            by_cases hm : kv.1 ∈ cur
            · simp [hm]
            · simp only [hm, if_neg, not_false_eq_true]
              exact List.subset_append_left _ _
          · simp only [hc, if_neg, not_false_eq_true]
            exact fun x hx => hx
        have := ih _ name e hmem2 (any_mem_mono _ _ _ hstep hreq)
        show name ∈ specRetainedStep rest _
        exact specRetainedStep_mono rest _ _ (fun x hx => hx) this

theorem retainedSkillNames_eq_step (m : Metadata) (sel : List String) :
    retainedSkillNames m sel
      = specRetainedStep ((m.resolvedDeps.get? "skills").getD []) sel := rfl

theorem specRetainedIter_incl (deps : List (String × DepEntry)) (sel : List String) :
    ∀ k, specRetainedIter deps sel k ⊆ specRetainedIter deps sel (k + 1) := by
  intro k
  induction k with
  | zero => exact specRetainedStep_infl deps sel
  | succ k ihk =>
      show specRetainedStep deps _ ⊆ specRetainedStep deps _
      exact specRetainedStep_mono deps _ _ ihk

theorem specRetainedIter_le (deps : List (String × DepEntry)) (sel : List String) :
    ∀ j k, j ≤ k → specRetainedIter deps sel j ⊆ specRetainedIter deps sel k := by
  intro j k hjk
  induction k with
  | zero =>
      have : j = 0 := Nat.le_zero.mp hjk
      subst this
      exact fun x hx => hx
  | succ k ihk =>
      rcases Nat.lt_or_ge j (k + 1) with hlt | hge
      · exact Set.Subset.trans (ihk (Nat.lt_succ_iff.mp hlt)) (specRetainedIter_incl deps sel k)
      · have : j = k + 1 := Nat.le_antisymm hjk hge
        subst this
        exact fun x hx => hx

theorem retained_subset_specRetained (m : Metadata) (sel : List String) :
    retainedSkillNames m sel ⊆ specRetained m sel := by
  rw [retainedSkillNames_eq_step]
  show specRetainedStep _ sel ⊆ specRetainedIter _ sel _
  rcases hdeps : (m.resolvedDeps.get? "skills").getD [] with _ | ⟨kv, rest⟩
  · exact fun x hx => hx
  · have h1 : specRetainedStep (kv :: rest) sel
        = specRetainedIter (kv :: rest) sel 1 := rfl
    rw [h1]
    exact specRetainedIter_le (kv :: rest) sel 1 (kv :: rest).length (by simp)

/-- Counterexample for C8: with the resolved skill-dependency chain
`S -> D1 -> D2 -> D3` stored in the order `D2, D1, D3` and `S` selected, the
single in-order pass retains only `S, D1`, so `D3` is flagged as an orphan
although its `requiredBy` (`D2`) intersects the spec's transitively-required
retained set — refuting the claimed if-and-only-if. -/
theorem orphan_flagging_not_transitive :
    ("D3", mkDep ["D2"]) ∈ (findOrphans metaChain (retainedSkillNames metaChain ["S"])).skills
    ∧ "D2" ∈ specRetained metaChain ["S"]
    ∧ (mkDep ["D2"]).requiredBy.any (fun s => s ∈ specRetained metaChain ["S"]) = true := by
  refine ⟨?_, ?_, ?_⟩ <;> decide

/-- C8 (amended): after a sync pass an auto-resolved entry is flagged as an
orphan candidate iff its `requiredBy` does not intersect the *single-pass*
retained set: the direct selection plus each ledger skill-dependency entry,
taken in stored order, whose `requiredBy` meets the set accumulated so far.
That set always contains the selection and every dependency directly required
by the selection, and is contained in the spec's transitive retained set (so
everything the spec would flag is flagged), but dependency chains of depth at
least two stored out of ancestor-first order can be flagged even though
transitively required.  The agent-only-required-by-X example still holds. -/
theorem orphan_flag_one_pass :
    (∀ (m : Metadata) (selected : List String) (category name : String) (e : DepEntry),
      ((name, e) ∈ findOrphansCat m (retainedSkillNames m selected) category
        ↔ ((name, e) ∈ (m.resolvedDeps.get? category).getD []
            ∧ e.requiredBy.any (fun s => s ∈ retainedSkillNames m selected) = false)))
    ∧ (∀ (m : Metadata) (selected : List String), selected ⊆ retainedSkillNames m selected)
    ∧ (∀ (m : Metadata) (selected : List String) (name : String) (e : DepEntry),
        (name, e) ∈ (m.resolvedDeps.get? "skills").getD [] →
        e.requiredBy.any (fun s => s ∈ selected) = true →
        name ∈ retainedSkillNames m selected)
    ∧ (∀ (m : Metadata) (selected : List String),
        retainedSkillNames m selected ⊆ specRetained m selected)
    ∧ (∀ (m : Metadata) (selected : List String) (Z : String) (eZ : DepEntry),
        (Z, eZ) ∈ (m.resolvedDeps.get? "agents").getD [] →
        eZ.requiredBy.any (fun s => s ∈ retainedSkillNames m selected) = false →
        (Z, eZ) ∈ (findOrphans m (retainedSkillNames m selected)).agents) := by
  refine ⟨?_, ?_, ?_, retained_subset_specRetained, ?_⟩
  · intro m selected category name e
    constructor
    · intro h
      have := List.mem_filter.mp h
      refine ⟨this.1, ?_⟩
      have h2 := this.2
      simp only [decide_eq_true_eq] at h2
      exact Bool.not_eq_true _ ▸ (by simpa using h2)
    · rintro ⟨hmem, hfalse⟩
      unfold findOrphansCat
      rw [List.mem_filter]
      exact ⟨hmem, by simp [hfalse]⟩
  · intro m selected
    rw [retainedSkillNames_eq_step]
    exact specRetainedStep_infl _ selected
  · intro m selected name e hmem hreq
    rw [retainedSkillNames_eq_step]
    exact specRetainedStep_mem_of_required _ selected name e hmem hreq
  · intro m selected Z eZ hmem hfalse
    show (Z, eZ) ∈ findOrphansCat m (retainedSkillNames m selected) "agents"
    unfold findOrphansCat
    rw [List.mem_filter]
    exact ⟨hmem, by simp [hfalse]⟩

/-- Witness for C8's amended theorem, on the counterexample ledger: `D1` is
directly required by the selection and retained; `D2` (required only by `D1`,
stored before it) is not in the one-pass set, so `D3` is flagged; and an
agent required only by the deselected `X` is flagged. -/
theorem orphan_flag_one_pass_witness :
    (("D3", mkDep ["D2"]) ∈ findOrphansCat metaChain (retainedSkillNames metaChain ["S"]) "skills"
      ↔ (("D3", mkDep ["D2"]) ∈ (metaChain.resolvedDeps.get? "skills").getD []
          ∧ (mkDep ["D2"]).requiredBy.any
              (fun s => s ∈ retainedSkillNames metaChain ["S"]) = false))
    ∧ "S" ∈ retainedSkillNames metaChain ["S"]
    ∧ "D1" ∈ retainedSkillNames metaChain ["S"]
    ∧ ("Z", mkDep ["X"]) ∈ (findOrphans
        { createEmptyMetadata with
            resolvedDeps := [("mcpServers", []), ("agents", [("Z", mkDep ["X"])]),
              ("skills", [])] }
        (retainedSkillNames { createEmptyMetadata with
            resolvedDeps := [("mcpServers", []), ("agents", [("Z", mkDep ["X"])]),
              ("skills", [])] } ["S"])).agents := by
  refine ⟨orphan_flag_one_pass.1 metaChain ["S"] "skills" "D3" (mkDep ["D2"]),
    orphan_flag_one_pass.2.1 metaChain ["S"] (by decide),
    orphan_flag_one_pass.2.2.1 metaChain ["S"] "D1" (mkDep ["S"]) (by decide) (by decide),
    orphan_flag_one_pass.2.2.2.2 _ ["S"] "Z" (mkDep ["X"]) (by decide) (by decide)⟩

/-! ## C9 — the backup convention and directory-shaped skills -/

theorem computeFileHash_none (fs : Fs) (p : String) (h : fsHasFile fs p = false) :
    computeFileHash fs p = none := by
  rcases hg : JsObj.get? fs p with _ | v
  · simp [computeFileHash, hg]
  · rw [fsHasFile, hg] at h
    cases h

theorem append_ne_of_data_ne_nil (a s : String) (hs : s.data ≠ []) : a ++ s ≠ a := by
  intro h
  have hdata := congrArg String.data h
  rw [String.data_append] at hdata
  have hlen := congrArg List.length hdata
  rw [List.length_append] at hlen
  have : s.data.length = 0 := by omega
  exact hs (List.length_eq_zero.mp this)

theorem fsCopy_file (srcFs dstFs : Fs) (src dst : String) (excl : Bool) (content : String)
    (hsrc : JsObj.get? srcFs src = some content) :
    fsCopy srcFs dstFs src dst excl
      = if excl = true ∧ baseName src = "manifest.json" then dstFs
        else dstFs.set dst content := by
  unfold fsCopy
  rw [hsrc]
  by_cases h1 : excl = true <;> by_cases h2 : baseName src = "manifest.json" <;>
    simp [h1, h2]

theorem fsCopy_dir (srcFs dstFs : Fs) (src dst : String) (excl : Bool)
    (hsrc : JsObj.get? srcFs src = none) :
    fsCopy srcFs dstFs src dst excl
      = (srcFs.filter (fun kv => isUnder src kv.1)).foldl
          (fun dstFs kv =>
            let rel := relOf src kv.1
            if excl && hasManifestComponent rel then dstFs
            else dstFs.set (dst ++ "/" ++ rel) kv.2)
          dstFs := by
  unfold fsCopy
  rw [hsrc]

theorem installFileComponent_backup_branch (srcFs : Fs) (st : SyncState) (c : FileComp)
    (hsrcEx : pathExists srcFs c.sourcePath = true)
    (htgtEx : pathExists st.fs c.targetPath = true)
    (hne : computeFileHash srcFs c.sourcePath ≠ computeFileHash st.fs c.targetPath) :
    installFileComponent srcFs st c
      = ({ st with
            fs := fsCopy srcFs
              (fsCopy st.fs st.fs c.targetPath (c.targetPath ++ ".local") false)
              c.sourcePath c.targetPath true
            log := (st.log ++ [WriteEvent.backup c.targetPath])
              ++ [WriteEvent.copyTree c.sourcePath c.targetPath] }, true) := by
  unfold installFileComponent
  rw [if_neg (fun hcon => hcon hsrcEx), if_pos htgtEx, if_pos hne]

theorem installFileComponent_nobackup_branch (srcFs : Fs) (st : SyncState) (c : FileComp)
    (hsrcEx : pathExists srcFs c.sourcePath = true)
    (htgtEx : pathExists st.fs c.targetPath = true)
    (heq : computeFileHash srcFs c.sourcePath = computeFileHash st.fs c.targetPath) :
    installFileComponent srcFs st c
      = ({ st with
            fs := fsCopy srcFs st.fs c.sourcePath c.targetPath true
            log := st.log ++ [WriteEvent.copyTree c.sourcePath c.targetPath] }, true) := by
  unfold installFileComponent
  rw [if_neg (fun hcon => hcon hsrcEx), if_pos htgtEx,
    if_neg (fun hcon : _ ≠ _ => hcon heq)]

theorem installFileComponent_fresh_branch (srcFs : Fs) (st : SyncState) (c : FileComp)
    (hsrcEx : pathExists srcFs c.sourcePath = true)
    (htgtEx : pathExists st.fs c.targetPath = false) :
    installFileComponent srcFs st c
      = ({ st with
            fs := fsCopy srcFs st.fs c.sourcePath c.targetPath true
            log := st.log ++ [WriteEvent.copyTree c.sourcePath c.targetPath] }, true) := by
  unfold installFileComponent
  rw [if_neg (fun hcon => hcon hsrcEx),
    if_neg (fun hcon : _ = true => by rw [htgtEx] at hcon; cases hcon)]

theorem installFileComponent_nosource_branch (srcFs : Fs) (st : SyncState) (c : FileComp)
    (hsrcEx : pathExists srcFs c.sourcePath = false) :
    installFileComponent srcFs st c = (st, false) := by
  unfold installFileComponent
  rw [if_pos (fun hcon : _ = true => by rw [hsrcEx] at hcon; cases hcon)]

/-- Counterexample for C9: a directory-shaped skill whose installed target
differs from the source (the directory hashes differ and the target exists)
is overwritten with *no* backup copy — the only write is the tree copy —
because `installFileComponent` compares `computeFileHash` values, which are
both `null` for directories. -/
theorem backup_skipped_for_directory_skills :
    pathExists staleSkillState.fs skillDemo.targetPath = true
    ∧ computeDirectoryHash srcFsDemo skillDemo.sourcePath
        ≠ computeDirectoryHash staleSkillState.fs skillDemo.targetPath
    ∧ (installFileComponent srcFsDemo staleSkillState skillDemo).1.log
        = [WriteEvent.copyTree "src/skills/S" "tgt/.claude/skills/S"] := by
  refine ⟨?_, ?_, ?_⟩ <;> decide

/-- C9 (amended): the backup convention holds exactly at the file-hash level:
a single-file component whose existing target file content differs from the
source file content is first copied aside to `targetPath + ".local"` before
being overwritten; a directory-shaped component (both file hashes `null`,
hence equal) never triggers the backup, whatever its contents. -/
theorem backup_behavior :
    (∀ (srcFs : Fs) (st : SyncState) (c : FileComp) (content tcontent : String),
      srcFs.get? c.sourcePath = some content →
      st.fs.get? c.targetPath = some tcontent →
      md5 content ≠ md5 tcontent →
      (installFileComponent srcFs st c).1.log
          = (st.log ++ [WriteEvent.backup c.targetPath])
            ++ [WriteEvent.copyTree c.sourcePath c.targetPath]
        ∧ ((installFileComponent srcFs st c).1.fs).get? (c.targetPath ++ ".local")
          = some tcontent)
    ∧ (∀ (srcFs : Fs) (st : SyncState) (c : FileComp),
        fsHasFile srcFs c.sourcePath = false →
        fsHasFile st.fs c.targetPath = false →
        ∃ tail, (installFileComponent srcFs st c).1.log = st.log ++ tail
          ∧ ∀ t, WriteEvent.backup t ∉ tail) := by
  constructor
  · intro srcFs st c content tcontent hsrc htgt hne
    have hsrcEx : pathExists srcFs c.sourcePath = true := by
      simp [pathExists, fsHasFile, hsrc]
    have htgtEx : pathExists st.fs c.targetPath = true := by
      simp [pathExists, fsHasFile, htgt]
    have hhashne : computeFileHash srcFs c.sourcePath ≠ computeFileHash st.fs c.targetPath := by
      intro h
      apply hne
      simpa [computeFileHash, hsrc, htgt] using h
    have hlocal : c.targetPath ++ ".local" ≠ c.targetPath :=
      append_ne_of_data_ne_nil c.targetPath ".local" (by decide)
    rw [installFileComponent_backup_branch srcFs st c hsrcEx htgtEx hhashne]
    refine ⟨rfl, ?_⟩
    have hbackup : (fsCopy st.fs st.fs c.targetPath (c.targetPath ++ ".local")
        false).get? (c.targetPath ++ ".local") = some tcontent := by
      rw [fsCopy_file st.fs st.fs c.targetPath (c.targetPath ++ ".local") false tcontent htgt]
      rw [if_neg (fun hcon => Bool.false_ne_true hcon.1)]
      rw [JsObj.get?_set, if_pos rfl]
    show (fsCopy srcFs _ c.sourcePath c.targetPath true).get? (c.targetPath ++ ".local")
        = some tcontent
    rw [fsCopy_file srcFs _ c.sourcePath c.targetPath true content hsrc]
    by_cases hbn : baseName c.sourcePath = "manifest.json"
    · rw [if_pos ⟨rfl, hbn⟩]
      exact hbackup
    · rw [if_neg (fun hcon => hbn hcon.2)]
      rw [JsObj.get?_set, if_neg (fun h => hlocal h.symm)]
      exact hbackup
  · intro srcFs st c hsrc htgt
    have hhash : computeFileHash srcFs c.sourcePath = computeFileHash st.fs c.targetPath := by
      rw [computeFileHash_none srcFs _ hsrc, computeFileHash_none st.fs _ htgt]
    rcases hex : pathExists srcFs c.sourcePath with _ | _
    · rw [installFileComponent_nosource_branch srcFs st c hex]
      exact ⟨[], by simp, fun t ht => absurd ht (List.not_mem_nil _)⟩
    · rcases htex : pathExists st.fs c.targetPath with _ | _
      · rw [installFileComponent_fresh_branch srcFs st c hex htex]
        refine ⟨[WriteEvent.copyTree c.sourcePath c.targetPath], rfl, ?_⟩
        intro t ht
        rw [List.mem_singleton] at ht
        cases ht
      · rw [installFileComponent_nobackup_branch srcFs st c hex htex hhash]
        refine ⟨[WriteEvent.copyTree c.sourcePath c.targetPath], rfl, ?_⟩
        intro t ht
        rw [List.mem_singleton] at ht
        cases ht

/-- Witness for C9's amended theorem: the demo agent file with changed target
content is backed up to `.local` before the copy, and the demo directory
skill (missing source file hash on both sides) performs no backup. -/
theorem backup_behavior_witness :
    ((installFileComponent srcFsDemo
        { fs := [("tgt/.claude/agents/ag.md", "OLD")], meta := createEmptyMetadata
          settings := { hooks := none }, mcpServers := none, log := [] } agentDemo).1.log
      = (([] : List WriteEvent) ++ [WriteEvent.backup "tgt/.claude/agents/ag.md"])
        ++ [WriteEvent.copyTree "src/agents/ag.md" "tgt/.claude/agents/ag.md"]
      ∧ ((installFileComponent srcFsDemo
        { fs := [("tgt/.claude/agents/ag.md", "OLD")], meta := createEmptyMetadata
          settings := { hooks := none }, mcpServers := none, log := [] } agentDemo).1.fs).get?
          ("tgt/.claude/agents/ag.md" ++ ".local") = some "OLD")
    ∧ (∃ tail, (installFileComponent srcFsDemo staleSkillState skillDemo).1.log
        = staleSkillState.log ++ tail ∧ ∀ t, WriteEvent.backup t ∉ tail) := by
  constructor
  · exact backup_behavior.1 srcFsDemo
      { fs := [("tgt/.claude/agents/ag.md", "OLD")], meta := createEmptyMetadata
        settings := { hooks := none }, mcpServers := none, log := [] } agentDemo
      "persona" "OLD" (by decide) (by decide) (by decide)
  · exact backup_behavior.2 srcFsDemo staleSkillState skillDemo (by decide) (by decide)

theorem char_eq_of_toNat_eq (a b : Char) (h : a.toNat = b.toNat) : a = b := by
  apply Char.ext
  apply UInt32.eq_of_toBitVec_eq
  exact BitVec.eq_of_toNat_eq h

theorem lexLe_total : ∀ as bs, lexLe as bs = true ∨ lexLe bs as = true
  | [], _ => Or.inl rfl
  | _ :: _, [] => Or.inr rfl
  | a :: as, b :: bs => by
      by_cases hab : a = b
      · subst hab
        rcases lexLe_total as bs with h | h
        · exact Or.inl (by simp [lexLe, h])
        · exact Or.inr (by simp [lexLe, h])
      · have hba : ¬ b = a := fun h => hab h.symm
        rcases Nat.lt_or_ge a.toNat b.toNat with h | h
        · exact Or.inl (by simp [lexLe, hab]; omega)
        · have hne : a.toNat ≠ b.toNat := fun he => hab (char_eq_of_toNat_eq a b he)
          exact Or.inr (by simp [lexLe, hba]; omega)

theorem lexLe_trans : ∀ as bs cs, lexLe as bs = true → lexLe bs cs = true →
    lexLe as cs = true
  | [], _, _, _, _ => rfl
  | _ :: _, [], _, h1, _ => by simp [lexLe] at h1
  | _ :: _, _ :: _, [], _, h2 => by simp [lexLe] at h2
  | a :: as, b :: bs, c :: cs, h1, h2 => by
      by_cases hab : a = b <;> by_cases hbc : b = c
      · subst hab; subst hbc
        simp only [lexLe, if_pos rfl] at h1 h2 ⊢
        exact lexLe_trans as bs cs h1 h2
      · subst hab
        simp [lexLe, hbc] at h2 ⊢
        exact h2
      · subst hbc
        simp [lexLe, hab] at h1 ⊢
        exact h1
      · simp [lexLe, hab] at h1
        simp [lexLe, hbc] at h2
        have hac : ¬ a = c := by
          intro he; subst he; omega
        simp [lexLe, hac]
        omega

theorem lexLe_antisymm : ∀ as bs, lexLe as bs = true → lexLe bs as = true → as = bs
  | [], [], _, _ => rfl
  | [], _ :: _, _, h2 => by simp [lexLe] at h2
  | _ :: _, [], h1, _ => by simp [lexLe] at h1
  | a :: as, b :: bs, h1, h2 => by
      by_cases hab : a = b
      · subst hab
        simp only [lexLe, if_pos rfl] at h1 h2
        rw [lexLe_antisymm as bs h1 h2]
      · have hba : ¬ b = a := fun h => hab h.symm
        simp [lexLe, hab] at h1
        simp [lexLe, hba] at h2
        omega

theorem strLe_total (a b : String) : strLe a b = true ∨ strLe b a = true :=
  lexLe_total a.data b.data

theorem strLe_trans (a b c : String) (h1 : strLe a b = true) (h2 : strLe b c = true) :
    strLe a c = true :=
  lexLe_trans a.data b.data c.data h1 h2

theorem strLe_antisymm (a b : String) (h1 : strLe a b = true) (h2 : strLe b a = true) :
    a = b :=
  String.ext (lexLe_antisymm a.data b.data h1 h2)

theorem localeLe_total (a b : String) : localeLe a b = true ∨ localeLe b a = true := by
  unfold localeLe
  by_cases he : lowerStr a = lowerStr b
  · rw [if_pos he, if_pos he.symm]
    exact strLe_total a b
  · rw [if_neg he, if_neg (fun h => he h.symm)]
    exact strLe_total (lowerStr a) (lowerStr b)

theorem localeLe_trans (a b c : String) (h1 : localeLe a b = true)
    (h2 : localeLe b c = true) : localeLe a c = true := by
  unfold localeLe at h1 h2 ⊢
  by_cases hab : lowerStr a = lowerStr b <;> by_cases hbc : lowerStr b = lowerStr c
  · rw [if_pos hab] at h1
    rw [if_pos hbc] at h2
    rw [if_pos (hab.trans hbc)]
    exact strLe_trans a b c h1 h2
  · rw [if_pos hab] at h1
    rw [if_neg hbc] at h2
    rw [if_neg (fun h => hbc (hab.symm.trans h)), hab]
    exact h2
  · rw [if_neg hab] at h1
    rw [if_pos hbc] at h2
    rw [if_neg (fun h => hab (h.trans hbc.symm)), ← hbc]
    exact h1
  · rw [if_neg hab] at h1
    rw [if_neg hbc] at h2
    have hac : ¬ lowerStr a = lowerStr c := by
      intro he
      rw [← he] at h2
      exact hab (strLe_antisymm _ _ h1 h2)
    rw [if_neg hac]
    exact strLe_trans _ _ _ h1 h2

theorem localeLe_antisymm (a b : String) (h1 : localeLe a b = true)
    (h2 : localeLe b a = true) : a = b := by
  unfold localeLe at h1 h2
  by_cases he : lowerStr a = lowerStr b
  · rw [if_pos he] at h1
    rw [if_pos he.symm] at h2
    exact strLe_antisymm a b h1 h2
  · rw [if_neg he] at h1
    rw [if_neg (fun h => he h.symm)] at h2
    exact absurd (strLe_antisymm _ _ h1 h2) he

theorem relLocaleLe_isTotal : IsTotal (String × String) relLocaleLe :=
  ⟨fun a b => localeLe_total a.1 b.1⟩

theorem relLocaleLe_isTrans : IsTrans (String × String) relLocaleLe :=
  ⟨fun a b c => localeLe_trans a.1 b.1 c.1⟩

theorem sorted_insort_locale (l : List (String × String)) :
    (l.insertionSort relLocaleLe).Sorted relLocaleLe :=
  @List.sorted_insertionSort _ relLocaleLe _ relLocaleLe_isTotal relLocaleLe_isTrans l

theorem sorted_nodupkeys_perm_eq :
    ∀ (l1 l2 : List (String × String)), l1.Perm l2 →
      l1.Sorted relLocaleLe → l2.Sorted relLocaleLe →
      (l1.map Prod.fst).Nodup → l1 = l2
  | [], l2, hp, _, _, _ => hp.nil_eq
  | a :: t, l2, hp, hs1, hs2, hnd => by
      cases l2 with
      | nil => exact absurd hp.eq_nil (List.cons_ne_nil a t)
      | cons b t2 =>
          have hab : a = b := by
            by_contra hne
            have ha2 : a ∈ t2 := by
              rcases List.mem_cons.mp (hp.mem_iff.mp (List.mem_cons_self a t)) with h | h
              · exact absurd h hne
              · exact h
            have hb1 : b ∈ t := by
              rcases List.mem_cons.mp (hp.mem_iff.mpr (List.mem_cons_self b t2)) with h | h
              · exact absurd h.symm hne
              · exact h
            have hr1 : relLocaleLe a b := List.rel_of_sorted_cons hs1 b hb1
            have hr2 : relLocaleLe b a := List.rel_of_sorted_cons hs2 a ha2
            have hkey : a.1 = b.1 := localeLe_antisymm a.1 b.1 hr1 hr2
            simp only [List.map_cons, List.nodup_cons] at hnd
            apply hnd.1
            rw [hkey]
            exact List.mem_map_of_mem Prod.fst hb1
          subst hab
          have hteq : t = t2 := by
            apply sorted_nodupkeys_perm_eq t t2 hp.cons_inv hs1.of_cons hs2.of_cons
            simp only [List.map_cons, List.nodup_cons] at hnd
            exact hnd.2
          rw [hteq]

theorem charPrefix_append : ∀ as bs, charPrefix as (as ++ bs) = true
  | [], _ => rfl
  | a :: as, bs => by simp [charPrefix, charPrefix_append as bs]

theorem charPrefix_drop : ∀ as bs, charPrefix as bs = true →
    bs = as ++ bs.drop as.length
  | [], _, _ => rfl
  | _ :: _, [], h => by simp [charPrefix] at h
  | a :: as, b :: bs, h => by
      simp only [charPrefix, Bool.and_eq_true, decide_eq_true_eq] at h
      obtain ⟨hab, hrest⟩ := h
      subst hab
      simp only [List.length_cons, List.drop_succ_cons, List.cons_append, List.cons.injEq,
        true_and]
      exact charPrefix_drop as bs hrest

theorem key_eq_of_relOf_eq (dir k1 k2 : String) (h1 : isUnder dir k1 = true)
    (h2 : isUnder dir k2 = true) (hrel : relOf dir k1 = relOf dir k2) : k1 = k2 := by
  unfold isUnder strIsPrefix at h1 h2
  have e1 := charPrefix_drop _ _ h1
  have e2 := charPrefix_drop _ _ h2
  have hd : k1.data.drop (dir ++ "/").data.length = k2.data.drop (dir ++ "/").data.length :=
    congrArg String.data hrel
  apply String.ext
  rw [e1, e2, hd]

theorem mem_scanFiles (l : Fs) (dir : String) (z : String × String)
    (hz : z ∈ scanFiles l dir) :
    ∃ y, y ∈ l ∧ isUnder dir y.1 = true ∧ z = (relOf dir y.1, y.2) := by
  unfold scanFiles at hz
  rw [List.mem_filterMap] at hz
  obtain ⟨y, hy, hmap⟩ := hz
  rw [List.mem_filter] at hy
  refine ⟨y, hy.1, hy.2, ?_⟩
  simp only at hmap
  by_cases hm : hasManifestComponent (relOf dir y.1) = true
  · rw [if_pos hm] at hmap
    cases hmap
  · rw [if_neg hm] at hmap
    exact (Option.some.injEq _ _ ▸ hmap).symm

theorem scanFiles_cons (x : String × String) (l : Fs) (dir : String) :
    scanFiles (x :: l) dir =
      (if isUnder dir x.1 = true then
        (if hasManifestComponent (relOf dir x.1) = true then []
         else [(relOf dir x.1, x.2)])
       else []) ++ scanFiles l dir := by
  unfold scanFiles
  rw [List.filter_cons]
  by_cases h1 : isUnder dir x.1 = true
  · rw [if_pos h1, if_pos h1, List.filterMap_cons]
    simp only
    by_cases h2 : hasManifestComponent (relOf dir x.1) = true
    · rw [if_pos h2, if_pos h2, List.nil_append]
    · rw [if_neg h2, if_neg h2, List.singleton_append]
  · rw [if_neg h1, if_neg h1, List.nil_append]
theorem scanFiles_fst_nodup : ∀ (l : Fs) (dir : String),
    (l.map Prod.fst).Nodup → ((scanFiles l dir).map Prod.fst).Nodup
  | [], _, _ => by simp [scanFiles]
  | x :: l, dir, hnd => by
      simp only [List.map_cons, List.nodup_cons] at hnd
      rw [scanFiles_cons]
      by_cases h1 : isUnder dir x.1 = true
      · rw [if_pos h1]
        by_cases h2 : hasManifestComponent (relOf dir x.1) = true
        · rw [if_pos h2, List.nil_append]
          exact scanFiles_fst_nodup l dir hnd.2
        · rw [if_neg h2, List.singleton_append]
          simp only [List.map_cons, List.nodup_cons]
          refine ⟨?_, scanFiles_fst_nodup l dir hnd.2⟩
          intro hmem
          rw [List.mem_map] at hmem
          obtain ⟨z, hz, hzf⟩ := hmem
          obtain ⟨y, hy, hyu, hzeq⟩ := mem_scanFiles l dir z hz
          have hrel : relOf dir y.1 = relOf dir x.1 := by
            rw [hzeq] at hzf
            exact hzf
          have hkey : y.1 = x.1 := key_eq_of_relOf_eq dir y.1 x.1 hyu h1 hrel
          apply hnd.1
          rw [← hkey]
          exact List.mem_map_of_mem Prod.fst hy
      · rw [if_neg h1, List.nil_append]
        exact scanFiles_fst_nodup l dir hnd.2

theorem scanFiles_set_manifest : ∀ (l : Fs) (dir k c : String),
    isUnder dir k = true → hasManifestComponent (relOf dir k) = true →
    scanFiles (JsObj.set l k c) dir = scanFiles l dir
  | [], dir, k, c, hu, hm => by
      show scanFiles [(k, c)] dir = scanFiles [] dir
      rw [scanFiles_cons]
      simp only [if_pos hu, if_pos hm, List.nil_append]
  | x :: l, dir, k, c, hu, hm => by
      obtain ⟨a, b⟩ := x
      by_cases hxk : a = k
      · subst hxk
        have hset : JsObj.set ((a, b) :: l) a c = (a, c) :: l := by
          simp [JsObj.set]
        rw [hset, scanFiles_cons, scanFiles_cons]
        simp only [if_pos hu, if_pos hm, List.nil_append]
      · have hset : JsObj.set ((a, b) :: l) k c = (a, b) :: JsObj.set l k c := by
          simp [JsObj.set, hxk]
        rw [hset, scanFiles_cons, scanFiles_cons,
          scanFiles_set_manifest l dir k c hu hm]

theorem get?_some_of_mem_nodup {α : Type} : ∀ (m : JsObj α) (k : String) (v : α),
    (k, v) ∈ m → (m.map Prod.fst).Nodup → JsObj.get? m k = some v
  | [], k, v, h, _ => absurd h (List.not_mem_nil _)
  | (a, b) :: rest, k, v, h, hnd => by
      simp only [List.map_cons, List.nodup_cons] at hnd
      rcases List.mem_cons.mp h with heq | hmem
      · have hk : k = a := congrArg Prod.fst heq
        have hv : v = b := congrArg Prod.snd heq
        subst hk; subst hv
        simp [JsObj.get?]
      · have hak : ¬ a = k := by
          intro hak
          apply hnd.1
          rw [hak]
          exact List.mem_map_of_mem Prod.fst hmem
        simp [JsObj.get?, hak, get?_some_of_mem_nodup rest k v hmem hnd.2]

theorem get?_isSome_of_key_mem {α : Type} : ∀ (m : JsObj α) (k : String),
    k ∈ m.map Prod.fst → (JsObj.get? m k).isSome = true
  | [], k, h => absurd h (List.not_mem_nil _)
  | (a, b) :: rest, k, h => by
      by_cases hak : a = k
      · simp [JsObj.get?, hak]
      · simp only [List.map_cons, List.mem_cons] at h
        rcases h with h | h
        · exact absurd h.symm hak
        · simp [JsObj.get?, hak, get?_isSome_of_key_mem rest k h]

theorem get?_eq_of_perm {α : Type} (m m' : JsObj α) (hp : m.Perm m')
    (hnd : (m.map Prod.fst).Nodup) (k : String) :
    JsObj.get? m k = JsObj.get? m' k := by
  rcases hg : JsObj.get? m k with _ | v
  · have hk : k ∉ m.map Prod.fst := by
      intro hmem
      have hs := get?_isSome_of_key_mem m k hmem
      rw [hg] at hs
      cases hs
    have hk' : k ∉ m'.map Prod.fst := fun hmem =>
      hk (((hp.map Prod.fst).mem_iff).mpr hmem)
    exact (JsObj.get?_none_of_key_not_mem m' k hk').symm
  · have hmem : (k, v) ∈ m' := hp.mem_iff.mp (get?_mem m k v hg)
    have hnd' : (m'.map Prod.fst).Nodup := ((hp.map Prod.fst).nodup_iff).mp hnd
    exact (get?_some_of_mem_nodup m' k v hmem hnd').symm

theorem any_perm {α : Type} (l l' : List α) (hp : l.Perm l') (f : α → Bool) :
    l.any f = l'.any f := by
  cases h : l'.any f
  · rw [List.any_eq_false] at h ⊢
    intro x hx
    exact h x (hp.mem_iff.mp hx)
  · rw [List.any_eq_true] at h ⊢
    obtain ⟨x, hx, hfx⟩ := h
    exact ⟨x, hp.mem_iff.mpr hx, hfx⟩

theorem keys_set {α : Type} : ∀ (m : JsObj α) (k : String) (v : α),
    (JsObj.set m k v).map Prod.fst
      = if k ∈ m.map Prod.fst then m.map Prod.fst else m.map Prod.fst ++ [k]
  | [], k, v => by simp [JsObj.set]
  | (a, b) :: rest, k, v => by
      by_cases hak : a = k
      · subst hak
        simp [JsObj.set]
      · have hka : ¬ k = a := fun h => hak h.symm
        simp only [JsObj.set, if_neg hak, List.map_cons, keys_set rest k v,
          List.mem_cons]
        by_cases hmem : k ∈ rest.map Prod.fst
        · simp [hmem]
        · simp [hmem, hka]

theorem fsHasDir_keys (fs : Fs) (p : String) :
    fsHasDir fs p = (fs.map Prod.fst).any (fun s => isUnder p s) := by
  unfold fsHasDir
  induction fs with
  | nil => rfl
  | cons x rest ih => simp [List.any_cons, ih]

theorem fsHasDir_set_true (fs : Fs) (k c p : String) (hd : fsHasDir fs p = true) :
    fsHasDir (JsObj.set fs k c) p = true := by
  rw [fsHasDir_keys] at hd ⊢
  rw [keys_set]
  by_cases hmem : k ∈ fs.map Prod.fst
  · rw [if_pos hmem]
    exact hd
  · rw [if_neg hmem, List.any_append, hd, Bool.true_or]
/-- C5 (counterexample): the directory hash is computed after sorting the
relative paths with `localeCompare` (case-insensitive ICU collation), not
"lexicographically" (byte order) as the spec words it.  With files `B.md`
and `a.md` the two orders disagree (`a` < `B` under the collation but
`B` < `a` in byte order), so the digests differ. -/
theorem directory_hash_not_lexicographic :
    computeDirectoryHash fsMixedCase "s" ≠ specLexDirectoryHash fsMixedCase "s" := by
  decide

/-- C5 (amended): the directory hash is stable in the claimed ways — it is
invariant under permutation of the filesystem entries (given unique keys) and
under edits of the component's `manifest.json`, and it is the digest of the
`relativePath + NUL + content` fold over the collected files sorted by the
`localeCompare` collation of their relative paths — but that sort order is the
ICU collation, not byte-lexicographic order. -/
theorem directory_hash_stability :
    (∀ (fs fs' : Fs) (p : String), fs.Perm fs' → (fs.map Prod.fst).Nodup →
      computeDirectoryHash fs p = computeDirectoryHash fs' p)
    ∧ (∀ (fs : Fs) (p c : String), pathExists fs p = true →
        computeDirectoryHash (JsObj.set fs (p ++ "/manifest.json") c) p
          = computeDirectoryHash fs p)
    ∧ (∀ (fs : Fs) (p : String), fsHasFile fs p = false → fsHasDir fs p = true →
        ∃ files, (scanFiles fs p).Perm files ∧ files.Sorted relLocaleLe
          ∧ computeDirectoryHash fs p = some (md5 (dirStream files))) := by
  refine ⟨?_, ?_, ?_⟩
  · intro fs fs' p hp hnd
    have hget := get?_eq_of_perm fs fs' hp hnd
    have hfile : fsHasFile fs p = fsHasFile fs' p := by
      unfold fsHasFile
      rw [hget p]
    have hdir : fsHasDir fs p = fsHasDir fs' p := any_perm fs fs' hp _
    have hfh : computeFileHash fs p = computeFileHash fs' p := by
      unfold computeFileHash
      rw [hget p]
    have hscan : (scanFiles fs p).Perm (scanFiles fs' p) := by
      unfold scanFiles
      exact List.Perm.filterMap _ (List.Perm.filter _ hp)
    have hsorteq : (scanFiles fs p).insertionSort relLocaleLe
        = (scanFiles fs' p).insertionSort relLocaleLe := by
      apply sorted_nodupkeys_perm_eq
      · exact ((List.perm_insertionSort _ _).trans hscan).trans
          (List.perm_insertionSort _ _).symm
      · exact sorted_insort_locale _
      · exact sorted_insort_locale _
      · exact (((List.perm_insertionSort relLocaleLe
          (scanFiles fs p)).map Prod.fst).nodup_iff).mpr (scanFiles_fst_nodup fs p hnd)
    simp only [computeDirectoryHash, hfile, hdir, hfh, hsorteq]
  · intro fs p c hex
    have hsplit : p ++ "/manifest.json" = (p ++ "/") ++ "manifest.json" := by
      rw [String.append_assoc]
      exact congrArg (fun t => p ++ t) (by decide)
    have hu : isUnder p (p ++ "/manifest.json") = true := by
      rw [hsplit]
      unfold isUnder strIsPrefix
      rw [String.data_append]
      exact charPrefix_append _ _
    have hrel : relOf p (p ++ "/manifest.json") = "manifest.json" := by
      have hdata : ((p ++ "/") ++ "manifest.json").data
          = (p ++ "/").data ++ "manifest.json".data := String.data_append _ _
      rw [hsplit]
      unfold relOf
      rw [hdata, List.drop_left]
    have hm : hasManifestComponent (relOf p (p ++ "/manifest.json")) = true := by
      rw [hrel]
      decide
    have hne : p ++ "/manifest.json" ≠ p :=
      append_ne_of_data_ne_nil p "/manifest.json" (by decide)
    have hgp : JsObj.get? (JsObj.set fs (p ++ "/manifest.json") c) p
        = JsObj.get? fs p := by
      rw [JsObj.get?_set, if_neg hne]
    have hfile : fsHasFile (JsObj.set fs (p ++ "/manifest.json") c) p
        = fsHasFile fs p := by
      unfold fsHasFile
      rw [hgp]
    have hfh : computeFileHash (JsObj.set fs (p ++ "/manifest.json") c) p
        = computeFileHash fs p := by
      unfold computeFileHash
      rw [hgp]
    have hscan : scanFiles (JsObj.set fs (p ++ "/manifest.json") c) p = scanFiles fs p :=
      scanFiles_set_manifest fs p _ c hu hm
    rcases hfcase : fsHasFile fs p with _ | _
    · have hd : fsHasDir fs p = true := by
        unfold pathExists at hex
        rw [hfcase] at hex
        simpa using hex
      have hdset : fsHasDir (JsObj.set fs (p ++ "/manifest.json") c) p = true :=
        fsHasDir_set_true fs _ c p hd
      simp only [computeDirectoryHash, hfile, hfcase, hd, hdset, hscan,
        Bool.false_eq_true, if_false, if_true]
    · simp only [computeDirectoryHash, hfile, hfcase, hfh, if_true]
  · intro fs p hf hd
    refine ⟨(scanFiles fs p).insertionSort relLocaleLe,
      (List.perm_insertionSort _ _).symm, sorted_insort_locale _, ?_⟩
    simp only [computeDirectoryHash, hf, hd, Bool.false_eq_true, if_false, if_true]

/-- Witness for C5's amended theorem at the mixed-case directory: swapping the
two entries leaves the hash unchanged, writing a `manifest.json` under the
directory leaves it unchanged, and the hash is the digest of the
collation-sorted fold. -/
theorem directory_hash_stability_witness :
    computeDirectoryHash fsMixedCase "s"
        = computeDirectoryHash [("s/a.md", "y"), ("s/B.md", "x")] "s"
    ∧ computeDirectoryHash (JsObj.set fsMixedCase ("s" ++ "/manifest.json") "m") "s"
        = computeDirectoryHash fsMixedCase "s"
    ∧ ∃ files, (scanFiles fsMixedCase "s").Perm files ∧ files.Sorted relLocaleLe
        ∧ computeDirectoryHash fsMixedCase "s" = some (md5 (dirStream files)) :=
  ⟨directory_hash_stability.1 fsMixedCase [("s/a.md", "y"), ("s/B.md", "x")] "s"
      (List.Perm.swap ("s/a.md", "y") ("s/B.md", "x") []) (by decide),
   directory_hash_stability.2.1 fsMixedCase "s" "m" (by decide),
   directory_hash_stability.2.2 fsMixedCase "s" (by decide) (by decide)⟩

theorem charPrefix_of_prefix_rel (as bs : List Char) (h : as <+: bs) :
    charPrefix as bs = true := by
  obtain ⟨t, ht⟩ := h
  rw [← ht]
  exact charPrefix_append as t

theorem data_append_slash (x : String) : (x ++ "/").data = x.data ++ ['/'] := by
  rw [String.data_append]

theorem isUnder_prefix_iff (d k : String) :
    isUnder d k = true ↔ (d.data ++ ['/']) <+: k.data := by
  unfold isUnder strIsPrefix
  rw [data_append_slash]
  constructor
  · intro h
    exact ⟨_, (charPrefix_drop _ _ h).symm⟩
  · exact charPrefix_of_prefix_rel _ _

theorem isUnder_ne (d k : String) (h : isUnder d k = true) : k ≠ d := by
  obtain ⟨t, ht⟩ := (isUnder_prefix_iff d k).mp h
  intro he
  subst he
  have hlen := congrArg List.length ht
  simp [List.length_append] at hlen

theorem isUnder_append (d r : String) : isUnder d ((d ++ "/") ++ r) = true := by
  rw [isUnder_prefix_iff, String.data_append, data_append_slash]
  exact ⟨r.data, rfl⟩

theorem relOf_append (d r : String) : relOf d ((d ++ "/") ++ r) = r := by
  have hdata : ((d ++ "/") ++ r).data = (d ++ "/").data ++ r.data := String.data_append _ _
  unfold relOf
  rw [hdata, List.drop_left]

theorem prefix_slash (x y : String) (h : (x.data ++ ['/']) <+: (y.data ++ ['/'])) :
    x = y ∨ isUnder x y = true := by
  by_cases hl : (x.data ++ ['/']).length = (y.data ++ ['/']).length
  · left
    have hxy := List.IsPrefix.eq_of_length h hl
    exact String.ext (List.append_cancel_right hxy)
  · right
    have hle : (x.data ++ ['/']).length < (y.data ++ ['/']).length :=
      Nat.lt_of_le_of_ne (List.IsPrefix.length_le h) hl
    have hle' : (x.data ++ ['/']).length ≤ y.data.length := by
      simp only [List.length_append, List.length_cons, List.length_nil] at hle ⊢
      omega
    have htake := List.prefix_iff_eq_take.mp h
    rw [List.take_append_of_le_length hle'] at htake
    rw [isUnder_prefix_iff, htake]
    exact List.take_prefix _ _

theorem under_clash (x y k : String) (hx : isUnder x k = true) (hy : isUnder y k = true) :
    x = y ∨ isUnder x y = true ∨ isUnder y x = true := by
  have hpx := (isUnder_prefix_iff x k).mp hx
  have hpy := (isUnder_prefix_iff y k).mp hy
  rcases List.prefix_or_prefix_of_prefix hpx hpy with h | h
  · rcases prefix_slash x y h with h1 | h1
    · exact Or.inl h1
    · exact Or.inr (Or.inl h1)
  · rcases prefix_slash y x h with h1 | h1
    · exact Or.inl h1.symm
    · exact Or.inr (Or.inr h1)

theorem set_append_of_not_mem {α : Type} : ∀ (m : JsObj α) (k : String) (v : α),
    k ∉ m.map Prod.fst → JsObj.set m k v = m ++ [(k, v)]
  | [], k, v, _ => rfl
  | (a, b) :: rest, k, v, h => by
      simp only [List.map_cons, List.mem_cons, not_or] at h
      have hak : ¬ a = k := fun hh => h.1 hh.symm
      simp only [JsObj.set, if_neg hak, List.cons_append, List.cons.injEq, true_and]
      exact set_append_of_not_mem rest k v h.2

theorem get?_append_left_none {α : Type} : ∀ (m1 m2 : JsObj α) (k : String),
    JsObj.get? m1 k = none → JsObj.get? (m1 ++ m2) k = JsObj.get? m2 k
  | [], _, _, _ => rfl
  | (a, b) :: rest, m2, k, h => by
      by_cases hak : a = k
      · rw [JsObj.get?, if_pos hak] at h
        cases h
      · rw [JsObj.get?, if_neg hak] at h
        rw [List.cons_append, JsObj.get?, if_neg hak]
        exact get?_append_left_none rest m2 k h

theorem filter_set_key {α : Type} (P : String → Bool) :
    ∀ (m : JsObj α) (k : String) (v : α), P k = false →
      (JsObj.set m k v).filter (fun kv => P kv.1) = m.filter (fun kv => P kv.1)
  | [], k, v, h => by simp [JsObj.set, List.filter, h]
  | (a, b) :: rest, k, v, h => by
      by_cases hak : a = k
      · subst hak
        have hset : JsObj.set ((a, b) :: rest) a v = (a, v) :: rest := by
          simp [JsObj.set]
        rw [hset]
        simp [List.filter_cons, h]
      · have hset : JsObj.set ((a, b) :: rest) k v = (a, b) :: JsObj.set rest k v := by
          simp [JsObj.set, hak]
        rw [hset]
        rw [List.filter_cons, List.filter_cons]
        rw [filter_set_key P rest k v h]

theorem fsHasDir_filter (fs : Fs) (tp : String) :
    fsHasDir fs tp = !(fs.filter (fun kv => isUnder tp kv.1)).isEmpty := by
  unfold fsHasDir
  induction fs with
  | nil => rfl
  | cons x rest ih =>
      rw [List.any_cons, List.filter_cons]
      rcases h : isUnder tp x.1 with _ | _
      · simp only [h, Bool.false_or]
        exact ih
      · simp [h, List.isEmpty]

theorem pathExists_set_false (fs : Fs) (tp k : String) (v : String)
    (hk1 : k ≠ tp) (hk2 : isUnder tp k = false)
    (h : pathExists fs tp = false) : pathExists (JsObj.set fs k v) tp = false := by
  unfold pathExists fsHasFile at h ⊢
  rw [Bool.or_eq_false_iff] at h ⊢
  constructor
  · rw [JsObj.get?_set, if_neg hk1]
    exact h.1
  · rw [fsHasDir_keys] at h ⊢
    rw [keys_set]
    by_cases hmem : k ∈ fs.map Prod.fst
    · rw [if_pos hmem]
      exact h.2
    · rw [if_neg hmem, List.any_append, h.2, Bool.false_or]
      simp [hk2]
theorem string_append_left_cancel (a b c : String) (h : a ++ b = a ++ c) : b = c := by
  have hd := congrArg String.data h
  rw [String.data_append, String.data_append] at hd
  exact String.ext (List.append_cancel_left hd)

theorem fsCopy_dir_step (srcFs dstFs : Fs) (src dst : String) (excl : Bool)
    (hsrc : JsObj.get? srcFs src = none) :
    fsCopy srcFs dstFs src dst excl
      = (srcFs.filter (fun kv => isUnder src kv.1)).foldl
          (copyEntryStep src dst excl) dstFs := by
  rw [fsCopy_dir srcFs dstFs src dst excl hsrc]
  rfl

theorem copyEntryStep_manifest (src dst : String) (excl : Bool) (dstFs : Fs)
    (kv : String × String) (hm : (excl && hasManifestComponent (relOf src kv.1)) = true) :
    copyEntryStep src dst excl dstFs kv = dstFs := by
  simp [copyEntryStep, hm]

theorem copyEntryStep_set (src dst : String) (excl : Bool) (dstFs : Fs)
    (kv : String × String) (hm : (excl && hasManifestComponent (relOf src kv.1)) = false) :
    copyEntryStep src dst excl dstFs kv
      = dstFs.set ((dst ++ "/") ++ relOf src kv.1) kv.2 := by
  simp only [copyEntryStep, hm, Bool.false_eq_true, if_false]

theorem foreign_key (tp tp' k : String) (h1 : tp ≠ tp') (h2 : isUnder tp tp' = false)
    (h3 : isUnder tp' tp = false) (hk : isUnder tp k = true) :
    k ≠ tp' ∧ isUnder tp' k = false := by
  constructor
  · intro he
    rw [he] at hk
    rw [h2] at hk
    cases hk
  · rcases hk' : isUnder tp' k with _ | _
    · rfl
    · rcases under_clash tp tp' k hk hk' with h | h | h
      · exact absurd h h1
      · rw [h] at h2
        cases h2
      · rw [h] at h3
        cases h3

theorem copy_fold_preserves (sp tp tp' : String) (excl : Bool)
    (h1 : tp ≠ tp') (h2 : isUnder tp tp' = false) (h3 : isUnder tp' tp = false) :
    ∀ (L : List (String × String)) (dstFs : Fs),
      JsObj.get? (L.foldl (copyEntryStep sp tp excl) dstFs) tp' = JsObj.get? dstFs tp'
      ∧ (L.foldl (copyEntryStep sp tp excl) dstFs).filter (fun kv => isUnder tp' kv.1)
          = dstFs.filter (fun kv => isUnder tp' kv.1)
      ∧ (pathExists dstFs tp' = false →
          pathExists (L.foldl (copyEntryStep sp tp excl) dstFs) tp' = false)
  | [], dstFs => ⟨rfl, rfl, fun h => h⟩
  | kv :: L, dstFs => by
      rw [List.foldl_cons]
      rcases hm : (excl && hasManifestComponent (relOf sp kv.1)) with _ | _
      · rw [copyEntryStep_set sp tp excl dstFs kv hm]
        have hkey : isUnder tp ((tp ++ "/") ++ relOf sp kv.1) = true := isUnder_append tp _
        have hfk := foreign_key tp tp' _ h1 h2 h3 hkey
        have hget : JsObj.get? (dstFs.set ((tp ++ "/") ++ relOf sp kv.1) kv.2) tp'
            = JsObj.get? dstFs tp' := by
          rw [JsObj.get?_set, if_neg hfk.1]
        have hfil : (dstFs.set ((tp ++ "/") ++ relOf sp kv.1) kv.2).filter
              (fun kv => isUnder tp' kv.1)
            = dstFs.filter (fun kv => isUnder tp' kv.1) :=
          filter_set_key _ dstFs _ kv.2 hfk.2
        obtain ⟨ih1, ih2, ih3⟩ :=
          copy_fold_preserves sp tp tp' excl h1 h2 h3 L
            (dstFs.set ((tp ++ "/") ++ relOf sp kv.1) kv.2)
        refine ⟨ih1.trans hget, ih2.trans hfil, fun hpe => ?_⟩
        exact ih3 (pathExists_set_false dstFs tp' _ kv.2 hfk.1 hfk.2 hpe)
      · rw [copyEntryStep_manifest sp tp excl dstFs kv hm]
        exact copy_fold_preserves sp tp tp' excl h1 h2 h3 L dstFs

theorem copy_fold_append (sp tp : String) :
    ∀ (L : List (String × String)) (dstFs : Fs),
      (∀ kv ∈ L, isUnder sp kv.1 = true) →
      ((L.map Prod.fst).Nodup) →
      (∀ kv ∈ L, ((tp ++ "/") ++ relOf sp kv.1) ∉ dstFs.map Prod.fst) →
      L.foldl (copyEntryStep sp tp true) dstFs
        = dstFs ++ L.filterMap (fun kv =>
            if hasManifestComponent (relOf sp kv.1) then none
            else some ((tp ++ "/") ++ relOf sp kv.1, kv.2))
  | [], dstFs, _, _, _ => by simp
  | kv :: L, dstFs, h1, h2, h3 => by
      simp only [List.map_cons, List.nodup_cons] at h2
      rcases hm : hasManifestComponent (relOf sp kv.1) with _ | _
      · rw [List.foldl_cons,
          copyEntryStep_set sp tp true dstFs kv (by rw [hm]; rfl),
          set_append_of_not_mem dstFs _ kv.2 (h3 kv (List.mem_cons_self _ _))]
        have h3' : ∀ kv' ∈ L, ((tp ++ "/") ++ relOf sp kv'.1)
            ∉ (dstFs ++ [((tp ++ "/") ++ relOf sp kv.1, kv.2)]).map Prod.fst := by
          intro kv' hkv' hmem
          rw [List.map_append, List.mem_append] at hmem
          rcases hmem with hmem | hmem
          · exact h3 kv' (List.mem_cons_of_mem _ hkv') hmem
          · simp only [List.map_cons, List.map_nil, List.mem_singleton] at hmem
            have hrel : relOf sp kv'.1 = relOf sp kv.1 :=
              string_append_left_cancel (tp ++ "/") _ _ hmem
            have hkeq : kv'.1 = kv.1 :=
              key_eq_of_relOf_eq sp kv'.1 kv.1
                (h1 kv' (List.mem_cons_of_mem _ hkv'))
                (h1 kv (List.mem_cons_self _ _)) hrel
            apply h2.1
            rw [← hkeq]
            exact List.mem_map_of_mem Prod.fst hkv'
        rw [copy_fold_append sp tp L _
          (fun kv' hkv' => h1 kv' (List.mem_cons_of_mem _ hkv')) h2.2 h3']
        rw [List.append_assoc]
        have hfm : List.filterMap (fun kv =>
              if hasManifestComponent (relOf sp kv.1) then none
              else some ((tp ++ "/") ++ relOf sp kv.1, kv.2)) (kv :: L)
            = ((tp ++ "/") ++ relOf sp kv.1, kv.2) :: List.filterMap (fun kv =>
              if hasManifestComponent (relOf sp kv.1) then none
              else some ((tp ++ "/") ++ relOf sp kv.1, kv.2)) L := by
          simp [hm]
        rw [hfm]
        rfl
      · rw [List.foldl_cons, copyEntryStep_manifest sp tp true dstFs kv (by rw [hm]; rfl)]
        have hfm : List.filterMap (fun kv =>
              if hasManifestComponent (relOf sp kv.1) then none
              else some ((tp ++ "/") ++ relOf sp kv.1, kv.2)) (kv :: L)
            = List.filterMap (fun kv =>
              if hasManifestComponent (relOf sp kv.1) then none
              else some ((tp ++ "/") ++ relOf sp kv.1, kv.2)) L := by
          simp [hm]
        rw [hfm]
        exact copy_fold_append sp tp L dstFs
          (fun kv' hkv' => h1 kv' (List.mem_cons_of_mem _ hkv')) h2.2
          (fun kv' hkv' => h3 kv' (List.mem_cons_of_mem _ hkv'))
theorem copy_entries_scan (sp tp : String) :
    ∀ (L : List (String × String)), (∀ kv ∈ L, isUnder sp kv.1 = true) →
      (L.filterMap (fun kv =>
          if hasManifestComponent (relOf sp kv.1) then none
          else some ((tp ++ "/") ++ relOf sp kv.1, kv.2))).filterMap
        (fun kv =>
          let rel := relOf tp kv.1
          if hasManifestComponent rel then none else some (rel, kv.2))
      = L.filterMap (fun kv =>
          let rel := relOf sp kv.1
          if hasManifestComponent rel then none else some (rel, kv.2))
  | [], _ => rfl
  | kv :: L, h1 => by
      have ih := copy_entries_scan sp tp L
        (fun kv' hkv' => h1 kv' (List.mem_cons_of_mem _ hkv'))
      rcases hm : hasManifestComponent (relOf sp kv.1) with _ | _
      · simp only [List.filterMap_cons, hm, Bool.false_eq_true, if_false]
        rw [show relOf tp ((tp ++ "/") ++ relOf sp kv.1) = relOf sp kv.1 from
          relOf_append tp _]
        simp only [List.filterMap_cons, hm, Bool.false_eq_true, if_false]
        rw [ih]
      · simp only [List.filterMap_cons, hm, if_true]
        exact ih

theorem scan_ne_dir (fs : Fs) (sp : String) (h : scanFiles fs sp ≠ []) :
    fsHasDir fs sp = true := by
  rcases hd : fsHasDir fs sp with _ | _
  · exfalso
    apply h
    have hfil : fs.filter (fun kv => isUnder sp kv.1) = [] := by
      rw [fsHasDir_filter] at hd
      rcases hfe : fs.filter (fun kv => isUnder sp kv.1) with _ | ⟨z, rest⟩
      · exact hfe
      · rw [hfe] at hd
        cases hd
    unfold scanFiles
    rw [hfil]
    rfl
  · rfl

theorem get?_none_of_pathExists_false (fs : Fs) (tp : String)
    (h : pathExists fs tp = false) : JsObj.get? fs tp = none := by
  unfold pathExists fsHasFile at h
  rw [Bool.or_eq_false_iff] at h
  rcases hg : JsObj.get? fs tp with _ | v
  · rfl
  · rw [hg] at h
    cases h.1

theorem fsHasDir_false_of_pathExists_false (fs : Fs) (tp : String)
    (h : pathExists fs tp = false) : fsHasDir fs tp = false := by
  unfold pathExists at h
  rw [Bool.or_eq_false_iff] at h
  exact h.2

theorem fsCopy_dir_fresh (sourceFs dstFs : Fs) (sp tp : String)
    (hsrc : JsObj.get? sourceFs sp = none)
    (hnd : (sourceFs.map Prod.fst).Nodup)
    (hdstf : JsObj.get? dstFs tp = none)
    (hdstd : fsHasDir dstFs tp = false) :
    JsObj.get? (fsCopy sourceFs dstFs sp tp true) tp = none
    ∧ scanFiles (fsCopy sourceFs dstFs sp tp true) tp = scanFiles sourceFs sp
    ∧ (scanFiles sourceFs sp ≠ [] → fsHasDir (fsCopy sourceFs dstFs sp tp true) tp = true) := by
  have h1 : ∀ kv ∈ sourceFs.filter (fun kv => isUnder sp kv.1), isUnder sp kv.1 = true :=
    fun kv hkv => (List.mem_filter.mp hkv).2
  have h2 : ((sourceFs.filter (fun kv => isUnder sp kv.1)).map Prod.fst).Nodup :=
    List.Nodup.sublist (List.Sublist.map Prod.fst (List.filter_sublist sourceFs)) hnd
  have h3 : ∀ kv ∈ sourceFs.filter (fun kv => isUnder sp kv.1),
      ((tp ++ "/") ++ relOf sp kv.1) ∉ dstFs.map Prod.fst := by
    intro kv hkv hmem
    rw [List.mem_map] at hmem
    obtain ⟨y, hy, hyk⟩ := hmem
    have hud : fsHasDir dstFs tp = true := by
      unfold fsHasDir
      rw [List.any_eq_true]
      exact ⟨y, hy, by rw [hyk]; exact isUnder_append tp _⟩
    rw [hdstd] at hud
    cases hud
  have hcopy : fsCopy sourceFs dstFs sp tp true
      = dstFs ++ (sourceFs.filter (fun kv => isUnder sp kv.1)).filterMap (fun kv =>
          if hasManifestComponent (relOf sp kv.1) then none
          else some ((tp ++ "/") ++ relOf sp kv.1, kv.2)) := by
    rw [fsCopy_dir_step sourceFs dstFs sp tp true hsrc]
    exact copy_fold_append sp tp _ dstFs h1 h2 h3
  have hNunder : ∀ z ∈ (sourceFs.filter (fun kv => isUnder sp kv.1)).filterMap (fun kv =>
      if hasManifestComponent (relOf sp kv.1) then none
      else some ((tp ++ "/") ++ relOf sp kv.1, kv.2)), isUnder tp z.1 = true := by
    intro z hz
    rw [List.mem_filterMap] at hz
    obtain ⟨y, _, hy⟩ := hz
    rcases hm : hasManifestComponent (relOf sp y.1) with _ | _
    · rw [hm] at hy
      simp only [Bool.false_eq_true, if_false, Option.some.injEq] at hy
      rw [← hy]
      exact isUnder_append tp _
    · rw [hm] at hy
      simp at hy
  have hgetN : JsObj.get? ((sourceFs.filter (fun kv => isUnder sp kv.1)).filterMap (fun kv =>
      if hasManifestComponent (relOf sp kv.1) then none
      else some ((tp ++ "/") ++ relOf sp kv.1, kv.2))) tp = none := by
    apply JsObj.get?_none_of_key_not_mem
    intro hmem
    rw [List.mem_map] at hmem
    obtain ⟨z, hz, hzk⟩ := hmem
    exact isUnder_ne tp z.1 (hNunder z hz) hzk
  have hga : JsObj.get? (fsCopy sourceFs dstFs sp tp true) tp = none := by
    rw [hcopy, get?_append_left_none dstFs _ tp hdstf, hgetN]
  have hfildst : dstFs.filter (fun kv => isUnder tp kv.1) = [] := by
    rw [fsHasDir_filter] at hdstd
    rcases hfe : dstFs.filter (fun kv => isUnder tp kv.1) with _ | ⟨z, rest⟩
    · exact hfe
    · rw [hfe] at hdstd
      cases hdstd
  have hscan : scanFiles (fsCopy sourceFs dstFs sp tp true) tp = scanFiles sourceFs sp := by
    rw [hcopy]
    unfold scanFiles
    rw [List.filter_append, hfildst, List.nil_append,
      List.filter_eq_self.mpr (fun z hz => hNunder z hz)]
    exact copy_entries_scan sp tp _ h1
  refine ⟨hga, hscan, fun hne => ?_⟩
  apply scan_ne_dir
  rw [hscan]
  exact hne
theorem computeDirectoryHash_congr (fs fs' : Fs) (tp : String)
    (hget : JsObj.get? fs tp = JsObj.get? fs' tp)
    (hfil : fs.filter (fun kv => isUnder tp kv.1) = fs'.filter (fun kv => isUnder tp kv.1)) :
    computeDirectoryHash fs tp = computeDirectoryHash fs' tp := by
  have hfile : fsHasFile fs tp = fsHasFile fs' tp := by
    unfold fsHasFile
    rw [hget]
  have hdir : fsHasDir fs tp = fsHasDir fs' tp := by
    rw [fsHasDir_filter, fsHasDir_filter, hfil]
  have hfh : computeFileHash fs tp = computeFileHash fs' tp := by
    unfold computeFileHash
    rw [hget]
  have hscan : scanFiles fs tp = scanFiles fs' tp := by
    unfold scanFiles
    rw [hfil]
  simp only [computeDirectoryHash, hfile, hdir, hfh, hscan]

theorem pathExists_congr (fs fs' : Fs) (tp : String)
    (hget : JsObj.get? fs tp = JsObj.get? fs' tp)
    (hfil : fs.filter (fun kv => isUnder tp kv.1) = fs'.filter (fun kv => isUnder tp kv.1)) :
    pathExists fs tp = pathExists fs' tp := by
  unfold pathExists fsHasFile
  rw [hget, fsHasDir_filter, fsHasDir_filter, hfil]

theorem status_installed_of_dir (sourceFs f : Fs) (c : FileComp)
    (hcat : c.category = "skills")
    (hpe : pathExists f c.targetPath = true)
    (hh : computeDirectoryHash f c.targetPath = computeDirectoryHash sourceFs c.sourcePath) :
    getFileBasedStatus sourceFs f c = Status.installed := by
  simp [getFileBasedStatus, hpe, hcat, hh]

theorem status_installed_of_file (sourceFs f : Fs) (c : FileComp)
    (hcat : ¬ c.category = "skills")
    (hpe : pathExists f c.targetPath = true)
    (hh : computeFileHash f c.targetPath = computeFileHash sourceFs c.sourcePath) :
    getFileBasedStatus sourceFs f c = Status.installed := by
  simp [getFileBasedStatus, hpe, hcat, hh]

theorem fsCopy_preserves (sourceFs dstFs : Fs) (sp tp tp' : String) (excl : Bool)
    (h1 : tp ≠ tp') (h2 : isUnder tp tp' = false) (h3 : isUnder tp' tp = false) :
    JsObj.get? (fsCopy sourceFs dstFs sp tp excl) tp' = JsObj.get? dstFs tp'
    ∧ (fsCopy sourceFs dstFs sp tp excl).filter (fun kv => isUnder tp' kv.1)
        = dstFs.filter (fun kv => isUnder tp' kv.1)
    ∧ (pathExists dstFs tp' = false →
        pathExists (fsCopy sourceFs dstFs sp tp excl) tp' = false) := by
  rcases hsrc : JsObj.get? sourceFs sp with _ | content
  · rw [fsCopy_dir_step sourceFs dstFs sp tp excl hsrc]
    exact copy_fold_preserves sp tp tp' excl h1 h2 h3 _ dstFs
  · rw [fsCopy_file sourceFs dstFs sp tp excl content hsrc]
    by_cases hbm : excl = true ∧ baseName sp = "manifest.json"
    · rw [if_pos hbm]
      exact ⟨rfl, rfl, fun h => h⟩
    · rw [if_neg hbm]
      refine ⟨?_, ?_, ?_⟩
      · rw [JsObj.get?_set, if_neg h1]
      · exact filter_set_key _ dstFs tp content h3
      · exact fun hpe => pathExists_set_false dstFs tp' tp content h1 h3 hpe

theorem copy_dir_install (sourceFs dstFs : Fs) (sp tp : String)
    (hsrc : JsObj.get? sourceFs sp = none)
    (hnd : (sourceFs.map Prod.fst).Nodup)
    (hscanne : scanFiles sourceFs sp ≠ [])
    (hdstf : JsObj.get? dstFs tp = none)
    (hdstd : fsHasDir dstFs tp = false) :
    computeDirectoryHash (fsCopy sourceFs dstFs sp tp true) tp
        = computeDirectoryHash sourceFs sp
    ∧ pathExists (fsCopy sourceFs dstFs sp tp true) tp = true := by
  obtain ⟨hga, hscan, hdir⟩ := fsCopy_dir_fresh sourceFs dstFs sp tp hsrc hnd hdstf hdstd
  have hdir' := hdir hscanne
  constructor
  · have hfile1 : fsHasFile (fsCopy sourceFs dstFs sp tp true) tp = false := by
      unfold fsHasFile
      rw [hga]
      rfl
    have hfile2 : fsHasFile sourceFs sp = false := by
      unfold fsHasFile
      rw [hsrc]
      rfl
    have hdir2 : fsHasDir sourceFs sp = true := scan_ne_dir sourceFs sp hscanne
    simp only [computeDirectoryHash, hfile1, hfile2, hdir', hdir2, hscan,
      Bool.false_eq_true, if_false, if_true]
  · unfold pathExists
    rw [hdir']
    simp
theorem resolveSkill_clean (ctx : ResolveCtx) (n : Nat) (sk : SkillComp)
    (st : ResolveState) (hman : sk.manifest = none)
    (hP : st.requiredMcpServers = [] ∧ st.requiredAgents = []
      ∧ st.requiredSkills = [] ∧ st.errors = [] ∧ st.warnings = []) :
    (resolveSkill ctx (n + 1) sk [] st).requiredMcpServers = []
    ∧ (resolveSkill ctx (n + 1) sk [] st).requiredAgents = []
    ∧ (resolveSkill ctx (n + 1) sk [] st).requiredSkills = []
    ∧ (resolveSkill ctx (n + 1) sk [] st).errors = []
    ∧ (resolveSkill ctx (n + 1) sk [] st).warnings = [] := by
  unfold resolveSkill
  by_cases hr : sk.name ∈ st.resolved
  · rw [if_pos hr]
    exact hP
  · rw [if_neg hr, if_neg (List.not_mem_nil sk.name), hman]
    exact hP

theorem resolve_fold_clean (ctx : ResolveCtx) (n : Nat) :
    ∀ (skills : List SkillComp) (st : ResolveState),
      (∀ sk ∈ skills, sk.manifest = none) →
      (st.requiredMcpServers = [] ∧ st.requiredAgents = []
        ∧ st.requiredSkills = [] ∧ st.errors = [] ∧ st.warnings = []) →
      ((skills.foldl (fun st skill => resolveSkill ctx (n + 1) skill [] st)
          st).requiredMcpServers = []
      ∧ (skills.foldl (fun st skill => resolveSkill ctx (n + 1) skill [] st)
          st).requiredAgents = []
      ∧ (skills.foldl (fun st skill => resolveSkill ctx (n + 1) skill [] st)
          st).requiredSkills = []
      ∧ (skills.foldl (fun st skill => resolveSkill ctx (n + 1) skill [] st)
          st).errors = []
      ∧ (skills.foldl (fun st skill => resolveSkill ctx (n + 1) skill [] st)
          st).warnings = [])
  | [], st, _, hP => hP
  | sk :: skills, st, hman, hP => by
      rw [List.foldl_cons]
      exact resolve_fold_clean ctx n skills _
        (fun sk' hsk' => hman sk' (List.mem_cons_of_mem _ hsk'))
        (resolveSkill_clean ctx n sk st (hman sk (List.mem_cons_self _ _)) hP)

theorem resolveDependencies_no_manifests (inp : ResolveInput)
    (h : ∀ sk ∈ inp.selectedSkills, sk.manifest = none) :
    resolveDependencies inp
      = { mcpServers := [], agents := [], skills := [], errors := []
          warnings := [] } := by
  have h5 := resolve_fold_clean
    { mcpServerNames := inp.poolMcpNames
      agentNames := inp.allAgentNames
      skillMap := inp.allSkills.map (fun s => (s.name, s))
      userSelectedSkillNames := inp.selectedSkills.map (·.name)
      userSelectedAgentNames := inp.selectedAgentNames }
    inp.allSkills.length inp.selectedSkills
    { requiredMcpServers := [], requiredAgents := [], requiredSkills := []
      errors := [], warnings := [], resolved := [] }
    h ⟨rfl, rfl, rfl, rfl, rfl⟩
  simp only [resolveDependencies]
  rw [h5.2.2.1, List.foldl_nil]
  rw [ResolveResult.mk.injEq]
  exact ⟨h5.1, h5.2.1, h5.2.2.1, h5.2.2.2.1, h5.2.2.2.2⟩

theorem syncFileCategory_single_noop (sourceFs : Fs) (isSkills : Bool) (c : FileComp)
    (now : String) (st : SyncState) :
    syncFileCategory sourceFs isSkills [(c, Status.installed)] [(c, Status.installed)]
      now st = st := by
  simp [syncFileCategory]

theorem syncFileCategory_single_install (sourceFs : Fs) (isSkills : Bool) (c : FileComp)
    (now : String) (st : SyncState)
    (hsrcEx : pathExists sourceFs c.sourcePath = true)
    (hfresh : pathExists st.fs c.targetPath = false) :
    syncFileCategory sourceFs isSkills [(c, Status.available)] [(c, Status.available)]
        now st
      = { st with fs := fsCopy sourceFs st.fs c.sourcePath c.targetPath true
                  meta := trackInstall st.meta c.category c.name
                    (if isSkills then computeDirectoryHash sourceFs c.sourcePath
                     else computeFileHash sourceFs c.sourcePath) c.sourcePath now
                  log := (st.log ++ [WriteEvent.copyTree c.sourcePath c.targetPath])
                    ++ [WriteEvent.ledgerWrite] } := by
  unfold syncFileCategory
  simp only [List.map_cons, List.map_nil, List.foldl_cons, List.foldl_nil]
  rw [if_neg (show ¬ (decide (c.name ∉ [c.name])
      && (decide (Status.available = Status.installed)
        || decide (Status.available = Status.outdated))) = true from by simp)]
  rw [if_pos (show (decide True
      || decide (Status.available = Status.outdated)) = true from rfl)]
  rw [installFileComponent_fresh_branch sourceFs st c hsrcEx hfresh]
  rfl

theorem cleanupOrphans_empty (sel : List String) (choices : UserChoices) (st : SyncState)
    (h : st.meta.resolvedDeps = createEmptyMetadata.resolvedDeps) :
    cleanupOrphans sel choices st = st := by
  unfold cleanupOrphans findOrphans findOrphansCat
  rw [h]
  have e1 : JsObj.get? createEmptyMetadata.resolvedDeps "mcpServers" = some [] := rfl
  have e2 : JsObj.get? createEmptyMetadata.resolvedDeps "agents" = some [] := rfl
  have e3 : JsObj.get? createEmptyMetadata.resolvedDeps "skills" = some [] := rfl
  rw [e1, e2, e3]
  simp
theorem trackInstall_resolvedDeps (m : Metadata) (c n : String) (h : Option String)
    (sp now : String) : (trackInstall m c n h sp now).resolvedDeps = m.resolvedDeps := rfl

theorem syncComponents_pair (sourceFs : Fs) (env : List String) (s a : FileComp)
    (ss sa : Status) (choices : UserChoices) (now : String) (st : SyncState)
    (res1 res2 : SyncState)
    (hsman : s.manifest = none)
    (hcat1 : syncFileCategory sourceFs true [(s, ss)] [(s, ss)] now st = res1)
    (hcat2 : syncFileCategory sourceFs false [(a, sa)] [(a, sa)] now res1 = res2)
    (hclean : res2.meta.resolvedDeps = createEmptyMetadata.resolvedDeps) :
    syncComponents sourceFs env [(s, ss)] [(a, sa)] []
      { skillNames := [s.name], agentNames := [a.name], hookNames := [] }
      [] choices now st = res2 := by
  simp only [syncComponents]
  rw [show ([(s, ss)].filter (fun p => p.1.name ∈
      ({ skillNames := [s.name], agentNames := [a.name], hookNames := [] }
        : Selection).skillNames)) = [(s, ss)] from by simp]
  rw [show ([(a, sa)].filter (fun p => p.1.name ∈
      ({ skillNames := [s.name], agentNames := [a.name], hookNames := [] }
        : Selection).agentNames)) = [(a, sa)] from by simp]
  rw [resolveDependencies_no_manifests]
  · simp only [List.map_cons, List.map_nil, ne_eq, not_true_eq_false,
      Bool.false_eq_true, if_false, List.not_mem_nil, decide_False]
    simp only [Bool.false_or, Bool.false_and, Bool.false_eq_true, if_false,
      installSkillDeps, List.foldl_nil]
    rw [hcat1, hcat2]
    exact cleanupOrphans_empty _ choices res2 hclean
  · intro sk hsk
    simp only [List.map_cons, List.map_nil, List.mem_singleton] at hsk
    subst hsk
    exact hsman
/-- C4 (amended): with hooks out of the picture, manifest-free components,
fresh (non-existing) and mutually independent install targets, and a clean
dependency ledger, the double sync is idempotent: after the first run the
selected skill and agent both report `installed`, and the second run performs
zero file writes.  (The unqualified claim is false: a pre-existing target
directory with stray files stays `outdated` forever, and every selected hook
causes a settings write and a ledger write on every run.) -/
theorem sync_idempotent_fresh
    (sourceFs : Fs) (env : List String) (s a : FileComp) (content : String)
    (st0 : SyncState) (now1 now2 : String) (choices : UserChoices)
    (hscat : s.category = "skills") (hacat : ¬ a.category = "skills")
    (hsman : s.manifest = none)
    (hnd : (sourceFs.map Prod.fst).Nodup)
    (hsrcS : JsObj.get? sourceFs s.sourcePath = none)
    (hscan : scanFiles sourceFs s.sourcePath ≠ [])
    (hsrcA : JsObj.get? sourceFs a.sourcePath = some content)
    (habase : ¬ baseName a.sourcePath = "manifest.json")
    (hfreshS : pathExists st0.fs s.targetPath = false)
    (hfreshA : pathExists st0.fs a.targetPath = false)
    (hneTp : s.targetPath ≠ a.targetPath)
    (hindSA : isUnder s.targetPath a.targetPath = false)
    (hindAS : isUnder a.targetPath s.targetPath = false)
    (hmeta : st0.meta.resolvedDeps = createEmptyMetadata.resolvedDeps) :
    (statusesOf sourceFs env { skills := [s], agents := [a], hooks := [] }
        (runOnce sourceFs env { skills := [s], agents := [a], hooks := [] }
          { skillNames := [s.name], agentNames := [a.name], hookNames := [] }
          [] choices now1 st0)).1 = [(s, Status.installed)]
    ∧ (statusesOf sourceFs env { skills := [s], agents := [a], hooks := [] }
        (runOnce sourceFs env { skills := [s], agents := [a], hooks := [] }
          { skillNames := [s.name], agentNames := [a.name], hookNames := [] }
          [] choices now1 st0)).2.1 = [(a, Status.installed)]
    ∧ (runOnce sourceFs env { skills := [s], agents := [a], hooks := [] }
        { skillNames := [s.name], agentNames := [a.name], hookNames := [] }
        [] choices now2
        (runOnce sourceFs env { skills := [s], agents := [a], hooks := [] }
          { skillNames := [s.name], agentNames := [a.name], hookNames := [] }
          [] choices now1 st0)).log = [] := by
  have hsrcExS : pathExists sourceFs s.sourcePath = true := by
    unfold pathExists
    rw [scan_ne_dir sourceFs s.sourcePath hscan]
    simp
  have hsrcExA : pathExists sourceFs a.sourcePath = true := by
    unfold pathExists fsHasFile
    rw [hsrcA]
    simp
  have hget0 : JsObj.get? st0.fs s.targetPath = none :=
    get?_none_of_pathExists_false _ _ hfreshS
  have hdir0 : fsHasDir st0.fs s.targetPath = false :=
    fsHasDir_false_of_pathExists_false _ _ hfreshS
  have hfreshA2 : pathExists
      (fsCopy sourceFs st0.fs s.sourcePath s.targetPath true) a.targetPath = false :=
    (fsCopy_preserves sourceFs st0.fs s.sourcePath s.targetPath a.targetPath true
      hneTp hindSA hindAS).2.2 hfreshA
  have hcopyA : fsCopy sourceFs
      (fsCopy sourceFs st0.fs s.sourcePath s.targetPath true)
      a.sourcePath a.targetPath true
      = JsObj.set (fsCopy sourceFs st0.fs s.sourcePath s.targetPath true)
          a.targetPath content := by
    rw [fsCopy_file sourceFs _ a.sourcePath a.targetPath true content hsrcA]
    rw [if_neg (fun hc => habase hc.2)]
  have hstA : syncFileCategory sourceFs true [(s, Status.available)]
      [(s, Status.available)] now1 { st0 with log := [] }
      = { fs := fsCopy sourceFs st0.fs s.sourcePath s.targetPath true
          meta := trackInstall st0.meta s.category s.name
            (computeDirectoryHash sourceFs s.sourcePath) s.sourcePath now1
          settings := st0.settings
          mcpServers := st0.mcpServers
          log := [WriteEvent.copyTree s.sourcePath s.targetPath,
            WriteEvent.ledgerWrite] } := by
    rw [syncFileCategory_single_install sourceFs true s now1 { st0 with log := [] }
      hsrcExS hfreshS]
    rfl
  have hstB : syncFileCategory sourceFs false [(a, Status.available)]
      [(a, Status.available)] now1
      { fs := fsCopy sourceFs st0.fs s.sourcePath s.targetPath true
        meta := trackInstall st0.meta s.category s.name
          (computeDirectoryHash sourceFs s.sourcePath) s.sourcePath now1
        settings := st0.settings
        mcpServers := st0.mcpServers
        log := [WriteEvent.copyTree s.sourcePath s.targetPath, WriteEvent.ledgerWrite] }
      = { fs := JsObj.set (fsCopy sourceFs st0.fs s.sourcePath s.targetPath true)
            a.targetPath content
          meta := trackInstall
            (trackInstall st0.meta s.category s.name
              (computeDirectoryHash sourceFs s.sourcePath) s.sourcePath now1)
            a.category a.name (computeFileHash sourceFs a.sourcePath) a.sourcePath now1
          settings := st0.settings
          mcpServers := st0.mcpServers
          log := [WriteEvent.copyTree s.sourcePath s.targetPath, WriteEvent.ledgerWrite,
            WriteEvent.copyTree a.sourcePath a.targetPath, WriteEvent.ledgerWrite] } := by
    rw [syncFileCategory_single_install sourceFs false a now1 _ hsrcExA hfreshA2]
    show ({ fs := fsCopy sourceFs
                    (fsCopy sourceFs st0.fs s.sourcePath s.targetPath true)
                    a.sourcePath a.targetPath true
            meta := trackInstall
                      (trackInstall st0.meta s.category s.name
                        (computeDirectoryHash sourceFs s.sourcePath) s.sourcePath now1)
                      a.category a.name (computeFileHash sourceFs a.sourcePath)
                      a.sourcePath now1
            settings := st0.settings
            mcpServers := st0.mcpServers
            log := [WriteEvent.copyTree s.sourcePath s.targetPath, WriteEvent.ledgerWrite,
                    WriteEvent.copyTree a.sourcePath a.targetPath,
                    WriteEvent.ledgerWrite] } : SyncState) = _
    rw [hcopyA]
  have hinstall := copy_dir_install sourceFs st0.fs s.sourcePath s.targetPath
    hsrcS hnd hscan hget0 hdir0
  have hset_pres_get : JsObj.get?
      (JsObj.set (fsCopy sourceFs st0.fs s.sourcePath s.targetPath true)
        a.targetPath content) s.targetPath
      = JsObj.get? (fsCopy sourceFs st0.fs s.sourcePath s.targetPath true)
          s.targetPath := by
    rw [JsObj.get?_set, if_neg (fun h => hneTp h.symm)]
  have hset_pres_fil : (JsObj.set (fsCopy sourceFs st0.fs s.sourcePath s.targetPath true)
        a.targetPath content).filter (fun kv => isUnder s.targetPath kv.1)
      = (fsCopy sourceFs st0.fs s.sourcePath s.targetPath true).filter
          (fun kv => isUnder s.targetPath kv.1) :=
    filter_set_key _ _ a.targetPath content hindSA
  have hs1 : getFileBasedStatus sourceFs
      (JsObj.set (fsCopy sourceFs st0.fs s.sourcePath s.targetPath true)
        a.targetPath content) s = Status.installed := by
    apply status_installed_of_dir sourceFs _ s hscat
    · rw [pathExists_congr _ _ s.targetPath hset_pres_get hset_pres_fil]
      exact hinstall.2
    · rw [computeDirectoryHash_congr _ _ s.targetPath hset_pres_get hset_pres_fil]
      exact hinstall.1
  have hga : JsObj.get? (JsObj.set
      (fsCopy sourceFs st0.fs s.sourcePath s.targetPath true) a.targetPath content)
      a.targetPath = some content := by
    rw [JsObj.get?_set, if_pos rfl]
  have ha1 : getFileBasedStatus sourceFs
      (JsObj.set (fsCopy sourceFs st0.fs s.sourcePath s.targetPath true)
        a.targetPath content) a = Status.installed := by
    apply status_installed_of_file sourceFs _ a hacat
    · unfold pathExists fsHasFile
      rw [hga]
      simp
    · unfold computeFileHash
      rw [hga, hsrcA]
  have hstat0 : statusesOf sourceFs env { skills := [s], agents := [a], hooks := [] }
      { st0 with log := [] } = ([(s, Status.available)], [(a, Status.available)], []) := by
    have hs0 : getFileBasedStatus sourceFs st0.fs s = Status.available := by
      unfold getFileBasedStatus
      rw [hfreshS]
      simp
    have ha0 : getFileBasedStatus sourceFs st0.fs a = Status.available := by
      unfold getFileBasedStatus
      rw [hfreshA]
      simp
    simp [statusesOf, hs0, ha0]
  have hsync1 := syncComponents_pair sourceFs env s a Status.available Status.available
    choices now1 { st0 with log := [] } _ _ hsman hstA hstB hmeta
  have hrun1 : runOnce sourceFs env { skills := [s], agents := [a], hooks := [] }
      { skillNames := [s.name], agentNames := [a.name], hookNames := [] }
      [] choices now1 st0
      = { fs := JsObj.set (fsCopy sourceFs st0.fs s.sourcePath s.targetPath true)
            a.targetPath content
          meta := trackInstall
            (trackInstall st0.meta s.category s.name
              (computeDirectoryHash sourceFs s.sourcePath) s.sourcePath now1)
            a.category a.name (computeFileHash sourceFs a.sourcePath) a.sourcePath now1
          settings := st0.settings
          mcpServers := st0.mcpServers
          log := [WriteEvent.copyTree s.sourcePath s.targetPath, WriteEvent.ledgerWrite,
            WriteEvent.copyTree a.sourcePath a.targetPath, WriteEvent.ledgerWrite] } := by
    simp only [runOnce]
    rw [hstat0]
    exact hsync1
  rw [hrun1]
  refine ⟨?_, ?_, ?_⟩
  · simp [statusesOf, hs1]
  · simp [statusesOf, ha1]
  · simp only [runOnce]
    have hstat2 : statusesOf sourceFs env { skills := [s], agents := [a], hooks := [] }
        { fs := JsObj.set (fsCopy sourceFs st0.fs s.sourcePath s.targetPath true)
            a.targetPath content
          meta := trackInstall
            (trackInstall st0.meta s.category s.name
              (computeDirectoryHash sourceFs s.sourcePath) s.sourcePath now1)
            a.category a.name (computeFileHash sourceFs a.sourcePath) a.sourcePath now1
          settings := st0.settings
          mcpServers := st0.mcpServers
          log := [] }
        = ([(s, Status.installed)], [(a, Status.installed)], []) := by
      simp [statusesOf, hs1, ha1]
    rw [hstat2]
    rw [syncComponents_pair sourceFs env s a Status.installed Status.installed
      choices now2
      { fs := JsObj.set (fsCopy sourceFs st0.fs s.sourcePath s.targetPath true)
                a.targetPath content
        meta := trackInstall
                  (trackInstall st0.meta s.category s.name
                    (computeDirectoryHash sourceFs s.sourcePath) s.sourcePath now1)
                  a.category a.name (computeFileHash sourceFs a.sourcePath)
                  a.sourcePath now1
        settings := st0.settings
        mcpServers := st0.mcpServers
        log := [] } _ _ hsman
      (syncFileCategory_single_noop sourceFs true s now2 _)
      (syncFileCategory_single_noop sourceFs false a now2 _)
      (by exact hmeta)]

/-- C4 (counterexample): the double sync on a target whose skill directory
holds a stray file is not idempotent.  After the first run the selected skill
still reports `outdated` (the merging directory copy never removes the stray
file, so the directory hashes keep differing), and the second run performs
four file writes (the skill tree copy and ledger write again, plus the
unconditional hook settings write and ledger write). -/
theorem sync_not_idempotent :
    (statusesOf srcFsDemo [] uniDemo dirtyRun1).1 = [(skillDemo, Status.outdated)]
    ∧ dirtyRun2.log ≠ [] ∧ dirtyRun2.log.length = 4 := by
  refine ⟨?_, ?_, ?_⟩ <;> decide

/-- Witness for C4's amended theorem on the demo scenario: fresh empty target,
the demo skill and agent, no hooks. -/
theorem sync_idempotent_fresh_witness :
    (statusesOf srcFsDemo []
        { skills := [skillDemo], agents := [agentDemo], hooks := [] }
        (runOnce srcFsDemo [] { skills := [skillDemo], agents := [agentDemo], hooks := [] }
          { skillNames := [skillDemo.name], agentNames := [agentDemo.name], hookNames := [] }
          [] declineAll "t1" emptyState)).1 = [(skillDemo, Status.installed)]
    ∧ (statusesOf srcFsDemo []
        { skills := [skillDemo], agents := [agentDemo], hooks := [] }
        (runOnce srcFsDemo [] { skills := [skillDemo], agents := [agentDemo], hooks := [] }
          { skillNames := [skillDemo.name], agentNames := [agentDemo.name], hookNames := [] }
          [] declineAll "t1" emptyState)).2.1 = [(agentDemo, Status.installed)]
    ∧ (runOnce srcFsDemo [] { skills := [skillDemo], agents := [agentDemo], hooks := [] }
        { skillNames := [skillDemo.name], agentNames := [agentDemo.name], hookNames := [] }
        [] declineAll "t2"
        (runOnce srcFsDemo [] { skills := [skillDemo], agents := [agentDemo], hooks := [] }
          { skillNames := [skillDemo.name], agentNames := [agentDemo.name], hookNames := [] }
          [] declineAll "t1" emptyState)).log = [] :=
  sync_idempotent_fresh srcFsDemo [] skillDemo agentDemo "persona" emptyState "t1" "t2"
    declineAll (by decide) (by decide) (by decide) (by decide) (by decide) (by decide)
    (by decide) (by decide) (by decide) (by decide) (by decide) (by decide) (by decide)
    (by decide)

end Hands
